import Mathlib

/-!
Verification of the email draft-normalization and rendering core of the
productivity-system repository (src/email_utils.py, src/draft-email.py).

Python values flowing through the draft pipeline are JSON-like dynamic
values; we embed them as the inductive type `Val`.  Python dicts are
modelled as association lists in insertion order with unique keys
(`Dict`); exceptions raised by the Python code are modelled with
`Except String`.
-/

/-- A Python/JSON-like dynamic value: None, bool, int, str, list, dict. -/
inductive Val where
  | none : Val
  | bool : Bool → Val
  | num : Int → Val
  | str : String → Val
  | list : List Val → Val
  | dict : List (String × Val) → Val

/-- A Python dict with string keys, in insertion order. -/
abbrev Dict := List (String × Val)

/-- `d.get(k, default)`: Python dict lookup with a default for an absent key.
A key that is present with value `None` (or any other value) is returned
as-is; the default applies only when the key is absent. -/
def dictGet (d : Dict) (k : String) (default : Val) : Val :=
  match List.lookup k d with
  | some v => v
  | Option.none => default

/-- `d[k] = v` on a Python dict: replace the value in place if the key is
present (keeping its position), otherwise append the new binding. -/
def dset (d : Dict) (k : String) (v : Val) : Dict :=
  match d with
  | [] => [(k, v)]
  | (k', v') :: rest => if k' = k then (k, v) :: rest else (k', v') :: dset rest k v

/-- Python truthiness of a value (`if x:`): None and empty
strings/lists/dicts and zero are falsy. -/
def pyTruthy : Val → Bool
  | Val.none => false
  | Val.bool b => b
  | Val.num n => n != 0
  | Val.str s => !s.isEmpty
  | Val.list l => !l.isEmpty
  | Val.dict d => !d.isEmpty

/-- `email_utils.normalize_recipient`: a string becomes
`{"email": s, "name": ""}`; any other value is accessed via `.get`, which
succeeds only for dicts (`{"email": d.get("email",""), "name": d.get("name","")}`)
and raises `AttributeError` for every other type (None, numbers, bools, lists). -/
def normalize_recipient : Val → Except String Val
  | Val.str s => Except.ok (Val.dict [("email", Val.str s), ("name", Val.str "")])
  | Val.dict d =>
      Except.ok (Val.dict [("email", dictGet d "email" (Val.str "")),
                           ("name", dictGet d "name" (Val.str ""))])
  | _ => Except.error "AttributeError"

/-- `[normalize_recipient(r) for r in l]`: elementwise normalization, raising
at the first element that raises. -/
def mapNR : List Val → Except String (List Val)
  | [] => Except.ok []
  | x :: xs =>
      match normalize_recipient x with
      | Except.error e => Except.error e
      | Except.ok w =>
          match mapNR xs with
          | Except.error e => Except.error e
          | Except.ok ws => Except.ok (w :: ws)

/-- One pass of `normalize_draft`'s loop body for a field `f ∈ {to, cc, bcc}`:
`if field in draft and draft[field]:` either maps a list elementwise through
`normalize_recipient` or wraps a single scalar; otherwise sets `[]`. -/
def normField (draft : Dict) (acc : Dict) (f : String) : Except String Dict :=
  match List.lookup f draft with
  | some v =>
      if pyTruthy v then
        match v with
        | Val.list l =>
            match mapNR l with
            | Except.error e => Except.error e
            | Except.ok l' => Except.ok (dset acc f (Val.list l'))
        | x =>
            match normalize_recipient x with
            | Except.error e => Except.error e
            | Except.ok w => Except.ok (dset acc f (Val.list [w]))
      else Except.ok (dset acc f (Val.list []))
  | Option.none => Except.ok (dset acc f (Val.list []))

/-- The `"from"` block of `normalize_draft`: only runs when `"from"` is
present and truthy; a list contributes its first element
(`draft["from"][0]`), a scalar is wrapped; a falsy `"from"` is left as the
copied-through original value. -/
def normFrom (draft : Dict) (acc : Dict) : Except String Dict :=
  match List.lookup "from" draft with
  | some v =>
      if pyTruthy v then
        match v with
        | Val.list (x :: _) =>
            match normalize_recipient x with
            | Except.error e => Except.error e
            | Except.ok w => Except.ok (dset acc "from" (Val.list [w]))
        | Val.list [] => Except.error "IndexError"
        | x =>
            match normalize_recipient x with
            | Except.error e => Except.error e
            | Except.ok w => Except.ok (dset acc "from" (Val.list [w]))
      else Except.ok acc
  | Option.none => Except.ok acc

/-- `email_utils.normalize_draft`: shallow-copies the draft, normalizes the
`to`/`cc`/`bcc` fields in order, then the `from` field.  The shallow copy
`normalized = draft.copy()` is the accumulator's initial value. -/
def normalize_draft (draft : Dict) : Except String Dict :=
  match normField draft draft "to" with
  | Except.error e => Except.error e
  | Except.ok n1 =>
      match normField draft n1 "cc" with
      | Except.error e => Except.error e
      | Except.ok n2 =>
          match normField draft n2 "bcc" with
          | Except.error e => Except.error e
          | Except.ok n3 => normFrom draft n3

example : normalize_draft [("to", Val.str "a@b.c")] =
    Except.ok [("to", Val.list [Val.dict [("email", Val.str "a@b.c"), ("name", Val.str "")]]),
               ("cc", Val.list []), ("bcc", Val.list [])] := rfl

example : normalize_recipient Val.none = Except.error "AttributeError" := rfl

example : normalize_draft [("from", Val.none)] =
    Except.ok [("from", Val.none), ("to", Val.list []), ("cc", Val.list []), ("bcc", Val.list [])] :=
  rfl

/-- Checker: is the value a string? -/
def vIsStr : Val → Bool
  | Val.str _ => true
  | _ => false

/-- Checker: is the value a one-element list? -/
def vIsSingletonList : Val → Bool
  | Val.list [_] => true
  | _ => false

-- === Association-list (Python dict) lemmas ===

theorem lookup_dset_self (d : Dict) (k : String) (v : Val) :
    List.lookup k (dset d k v) = some v := by
  induction d with
  | nil => simp [dset, List.lookup]
  | cons p rest ih =>
      obtain ⟨k', v'⟩ := p
      by_cases h : k' = k
      · simp [dset, h, List.lookup]
      · have hb : (k == k') = false := beq_eq_false_iff_ne.mpr (Ne.symm h)
        simp [dset, h, List.lookup, hb, ih]

theorem lookup_dset_ne (d : Dict) (k k' : String) (v : Val) (h : k' ≠ k) :
    List.lookup k' (dset d k v) = List.lookup k' d := by
  have hb : (k' == k) = false := beq_eq_false_iff_ne.mpr h
  induction d with
  | nil => simp [dset, List.lookup, hb]
  | cons p rest ih =>
      obtain ⟨k₀, v₀⟩ := p
      by_cases hk : k₀ = k
      · subst hk
        simp [dset, List.lookup, hb]
      · simp [dset, hk, List.lookup, ih]

theorem dset_self_eq (d : Dict) (k : String) (v : Val)
    (h : List.lookup k d = some v) : dset d k v = d := by
  induction d with
  | nil => simp [List.lookup] at h
  | cons p rest ih =>
      obtain ⟨k₀, v₀⟩ := p
      by_cases hk : k₀ = k
      · subst hk
        simp [List.lookup] at h
        simp [dset, h]
      · have hb : (k == k₀) = false := beq_eq_false_iff_ne.mpr (Ne.symm hk)
        simp [List.lookup, hb] at h
        simp [dset, hk, ih h]

-- === normalize_recipient lemmas ===

theorem nr_shape {v w : Val} (h : normalize_recipient v = Except.ok w) :
    ∃ e n, w = Val.dict [("email", e), ("name", n)] := by
  cases v <;> simp [normalize_recipient] at h <;> exact ⟨_, _, h.symm⟩

theorem nr_fix {v w : Val} (h : normalize_recipient v = Except.ok w) :
    normalize_recipient w = Except.ok w := by
  obtain ⟨e, n, rfl⟩ := nr_shape h
  simp [normalize_recipient, dictGet, List.lookup]

theorem mapNR_shape {l l' : List Val} (h : mapNR l = Except.ok l') :
    ∀ w ∈ l', ∃ e n, w = Val.dict [("email", e), ("name", n)] := by
  induction l generalizing l' with
  | nil =>
      simp [mapNR] at h
      subst h; simp
  | cons x xs ih =>
      simp only [mapNR] at h
      cases hx : normalize_recipient x with
      | error e => simp [hx] at h
      | ok w =>
          simp only [hx] at h
          cases hxs : mapNR xs with
          | error e => simp [hxs] at h
          | ok ws =>
              simp only [hxs] at h
              cases h
              intro u hu
              rcases List.mem_cons.mp hu with h1 | h2
              · subst h1; exact nr_shape hx
              · exact ih hxs u h2

theorem mapNR_fix {l l' : List Val} (h : mapNR l = Except.ok l') :
    mapNR l' = Except.ok l' := by
  induction l generalizing l' with
  | nil =>
      simp [mapNR] at h
      subst h; rfl
  | cons x xs ih =>
      simp only [mapNR] at h
      cases hx : normalize_recipient x with
      | error e => simp [hx] at h
      | ok w =>
          simp only [hx] at h
          cases hxs : mapNR xs with
          | error e => simp [hxs] at h
          | ok ws =>
              simp only [hxs] at h
              cases h
              simp [mapNR, nr_fix hx, ih hxs]

-- === normField / normFrom characterization ===


theorem normField_eq_absent {draft acc : Dict} {f : String}
    (hl : List.lookup f draft = Option.none) :
    normField draft acc f = Except.ok (dset acc f (Val.list [])) := by
  unfold normField
  rw [hl]

theorem normField_eq_falsy {draft acc : Dict} {f : String} {v : Val}
    (hl : List.lookup f draft = some v) (ht : pyTruthy v = false) :
    normField draft acc f = Except.ok (dset acc f (Val.list [])) := by
  unfold normField
  rw [hl]
  simp [ht]

theorem normField_eq_list {draft acc : Dict} {f : String} {src : List Val}
    (hl : List.lookup f draft = some (Val.list src))
    (ht : pyTruthy (Val.list src) = true) :
    normField draft acc f =
      (match mapNR src with
       | Except.error e => Except.error e
       | Except.ok l' => Except.ok (dset acc f (Val.list l'))) := by
  unfold normField
  rw [hl]
  simp [ht]

theorem normField_eq_scalar {draft acc : Dict} {f : String} {v : Val}
    (hl : List.lookup f draft = some v) (ht : pyTruthy v = true)
    (hns : ∀ src, v ≠ Val.list src) :
    normField draft acc f =
      (match normalize_recipient v with
       | Except.error e => Except.error e
       | Except.ok w => Except.ok (dset acc f (Val.list [w]))) := by
  unfold normField
  rw [hl]
  cases v with
  | list src => exact absurd rfl (hns src)
  | none => simp [ht]
  | bool b => simp [ht]
  | num n => simp [ht]
  | str s => simp [ht]
  | dict d => simp [ht]

theorem normField_ok {draft acc : Dict} {f : String} {acc' : Dict}
    (h : normField draft acc f = Except.ok acc') :
    ∃ l : List Val,
      acc' = dset acc f (Val.list l)
      ∧ (List.lookup f draft = Option.none → l = [])
      ∧ (∀ v, List.lookup f draft = some v → pyTruthy v = false → l = [])
      ∧ (∀ src, List.lookup f draft = some (Val.list src) → pyTruthy (Val.list src) = true →
           mapNR src = Except.ok l)
      ∧ (∀ v, List.lookup f draft = some v → pyTruthy v = true → (∀ src, v ≠ Val.list src) →
           ∃ w, normalize_recipient v = Except.ok w ∧ l = [w]) := by
  cases hl : List.lookup f draft with
  | none =>
      rw [normField_eq_absent hl] at h
      cases h
      exact ⟨[], rfl, fun _ => rfl, by simp [hl], by simp [hl], by simp [hl]⟩
  | some v =>
      cases ht : pyTruthy v with
      | false =>
          rw [normField_eq_falsy hl ht] at h
          cases h
          refine ⟨[], rfl, by simp [hl], fun _ _ _ => rfl, ?_, ?_⟩
          · intro src hsrc htr
            simp [hl] at hsrc
            subst hsrc
            rw [ht] at htr
            cases htr
          · intro v' hv' htr
            simp [hl] at hv'
            subst hv'
            rw [ht] at htr
            cases htr
      | true =>
          by_cases hlist : ∃ src, v = Val.list src
          · obtain ⟨src, rfl⟩ := hlist
            rw [normField_eq_list hl ht] at h
            cases hm : mapNR src with
            | error e => rw [hm] at h; cases h
            | ok l' =>
                rw [hm] at h
                cases h
                refine ⟨l', rfl, by simp [hl], ?_, ?_, ?_⟩
                · intro v' hv' hfalse
                  simp [hl] at hv'
                  subst hv'
                  rw [ht] at hfalse
                  cases hfalse
                · intro src' hsrc' _
                  simp [hl] at hsrc'
                  subst hsrc'
                  exact hm
                · intro v' hv' _ hns
                  simp [hl] at hv'
                  subst hv'
                  exact absurd rfl (hns src)
          · have hns : ∀ src, v ≠ Val.list src := fun src hv => hlist ⟨src, hv⟩
            rw [normField_eq_scalar hl ht hns] at h
            cases hw : normalize_recipient v with
            | error e => rw [hw] at h; cases h
            | ok w =>
                rw [hw] at h
                cases h
                refine ⟨[w], rfl, by simp [hl], ?_, ?_, ?_⟩
                · intro v' hv' hfalse
                  simp [hl] at hv'
                  subst hv'
                  rw [ht] at hfalse
                  cases hfalse
                · intro src' hsrc' _
                  simp [hl] at hsrc'
                  subst hsrc'
                  exact absurd rfl (hns src')
                · intro v' hv' _ _
                  simp [hl] at hv'
                  subst hv'
                  exact ⟨w, hw, rfl⟩

theorem normFrom_eq_absent {draft acc : Dict}
    (hl : List.lookup "from" draft = Option.none) :
    normFrom draft acc = Except.ok acc := by
  unfold normFrom
  rw [hl]

theorem normFrom_eq_falsy {draft acc : Dict} {v : Val}
    (hl : List.lookup "from" draft = some v) (ht : pyTruthy v = false) :
    normFrom draft acc = Except.ok acc := by
  unfold normFrom
  rw [hl]
  cases v <;> simp [ht]

theorem normFrom_eq_list {draft acc : Dict} {x : Val} {t : List Val}
    (hl : List.lookup "from" draft = some (Val.list (x :: t))) :
    normFrom draft acc =
      (match normalize_recipient x with
       | Except.error e => Except.error e
       | Except.ok w => Except.ok (dset acc "from" (Val.list [w]))) := by
  unfold normFrom
  rw [hl]
  simp [pyTruthy]

theorem normFrom_eq_scalar {draft acc : Dict} {v : Val}
    (hl : List.lookup "from" draft = some v) (ht : pyTruthy v = true)
    (hns : ∀ src, v ≠ Val.list src) :
    normFrom draft acc =
      (match normalize_recipient v with
       | Except.error e => Except.error e
       | Except.ok w => Except.ok (dset acc "from" (Val.list [w]))) := by
  unfold normFrom
  rw [hl]
  cases v with
  | list src => exact absurd rfl (hns src)
  | none => simp [ht]
  | bool b => simp [ht]
  | num n => simp [ht]
  | str s => simp [ht]
  | dict d => simp [ht]

theorem normFrom_ok {draft acc r : Dict} (h : normFrom draft acc = Except.ok r) :
    (List.lookup "from" draft = Option.none → r = acc)
    ∧ (∀ v, List.lookup "from" draft = some v → pyTruthy v = false → r = acc)
    ∧ (∀ v, List.lookup "from" draft = some v → pyTruthy v = true →
        ∃ w, r = dset acc "from" (Val.list [w])
          ∧ (∀ x t, v = Val.list (x :: t) → normalize_recipient x = Except.ok w)
          ∧ ((∀ src, v ≠ Val.list src) → normalize_recipient v = Except.ok w)) := by
  cases hl : List.lookup "from" draft with
  | none =>
      rw [normFrom_eq_absent hl] at h
      cases h
      exact ⟨fun _ => rfl, by simp [hl], by simp [hl]⟩
  | some v =>
      cases ht : pyTruthy v with
      | false =>
          rw [normFrom_eq_falsy hl ht] at h
          cases h
          refine ⟨by simp [hl], fun _ _ _ => rfl, ?_⟩
          intro v' hv' htr
          simp [hl] at hv'
          subst hv'
          rw [ht] at htr
          cases htr
      | true =>
          by_cases hlist : ∃ src, v = Val.list src
          · obtain ⟨src, rfl⟩ := hlist
            cases src with
            | nil => rw [pyTruthy] at ht; simp at ht
            | cons x t =>
                rw [normFrom_eq_list hl] at h
                cases hw : normalize_recipient x with
                | error e => rw [hw] at h; cases h
                | ok w =>
                    rw [hw] at h
                    cases h
                    refine ⟨by simp [hl], ?_, ?_⟩
                    · intro v' hv' hfalse
                      simp [hl] at hv'
                      subst hv'
                      rw [ht] at hfalse
                      cases hfalse
                    · intro v' hv' _
                      simp [hl] at hv'
                      subst hv'
                      refine ⟨w, rfl, ?_, ?_⟩
                      · intro x' t' hx
                        cases hx
                        exact hw
                      · intro hns
                        exact absurd rfl (hns (x :: t))
          · have hns : ∀ src, v ≠ Val.list src := fun src hv => hlist ⟨src, hv⟩
            rw [normFrom_eq_scalar hl ht hns] at h
            cases hw : normalize_recipient v with
            | error e => rw [hw] at h; cases h
            | ok w =>
                rw [hw] at h
                cases h
                refine ⟨by simp [hl], ?_, ?_⟩
                · intro v' hv' hfalse
                  simp [hl] at hv'
                  subst hv'
                  rw [ht] at hfalse
                  cases hfalse
                · intro v' hv' _
                  simp [hl] at hv'
                  subst hv'
                  refine ⟨w, rfl, ?_, fun _ => hw⟩
                  intro x' t' hx
                  exact absurd hx (hns (x' :: t'))

theorem normalize_draft_decomp {d r : Dict} (h : normalize_draft d = Except.ok r) :
    ∃ n1 n2 n3, normField d d "to" = Except.ok n1
      ∧ normField d n1 "cc" = Except.ok n2
      ∧ normField d n2 "bcc" = Except.ok n3
      ∧ normFrom d n3 = Except.ok r := by
  unfold normalize_draft at h
  split at h
  · cases h
  · rename_i n1 h1
    split at h
    · cases h
    · rename_i n2 h2
      split at h
      · cases h
      · rename_i n3 h3
        exact ⟨n1, n2, n3, h1, h2, h3, h⟩

theorem normField_lookup_ne {draft acc : Dict} {f : String} {acc' : Dict}
    (h : normField draft acc f = Except.ok acc') (k : String) (hk : k ≠ f) :
    List.lookup k acc' = List.lookup k acc := by
  obtain ⟨l, rfl, -⟩ := normField_ok h
  exact lookup_dset_ne acc f k (Val.list l) hk

theorem normFrom_lookup_ne {draft acc r : Dict}
    (h : normFrom draft acc = Except.ok r) (k : String) (hk : k ≠ "from") :
    List.lookup k r = List.lookup k acc := by
  cases hl : List.lookup "from" draft with
  | none => rw [(normFrom_ok h).1 hl]
  | some v =>
      cases ht : pyTruthy v with
      | false => rw [(normFrom_ok h).2.1 v hl ht]
      | true =>
          obtain ⟨w, rfl, -⟩ := (normFrom_ok h).2.2 v hl ht
          exact lookup_dset_ne acc "from" k (Val.list [w]) hk

/-- Key-wise input condition: the values stored under key `k`, when present,
are strings. -/
def strOrAbsent (d : Dict) (k : String) : Prop :=
  ∀ w, List.lookup k d = some w → ∃ s, w = Val.str s

/-- A recipient entry that produces string-valued `email`/`name` fields:
either a bare string, or a dict whose `email`/`name` values (when present)
are strings. -/
def goodRecip (v : Val) : Prop :=
  (∃ s, v = Val.str s)
  ∨ (∃ dd, v = Val.dict dd ∧ strOrAbsent dd "email" ∧ strOrAbsent dd "name")

theorem nr_good {v w : Val} (hg : goodRecip v)
    (h : normalize_recipient v = Except.ok w) :
    ∃ es ns, w = Val.dict [("email", Val.str es), ("name", Val.str ns)] := by
  rcases hg with ⟨s, rfl⟩ | ⟨dd, rfl, he, hn⟩
  · cases h
    exact ⟨s, "", rfl⟩
  · cases h
    unfold dictGet
    cases hle : List.lookup "email" dd with
    | none =>
        cases hln : List.lookup "name" dd with
        | none => exact ⟨"", "", rfl⟩
        | some u =>
            obtain ⟨su, rfl⟩ := hn u hln
            exact ⟨"", su, rfl⟩
    | some u =>
        obtain ⟨su, rfl⟩ := he u hle
        cases hln : List.lookup "name" dd with
        | none => exact ⟨su, "", rfl⟩
        | some u' =>
            obtain ⟨su', rfl⟩ := hn u' hln
            exact ⟨su, su', rfl⟩

theorem mapNR_good {l l' : List Val} (hg : ∀ x ∈ l, goodRecip x)
    (h : mapNR l = Except.ok l') :
    ∀ w ∈ l', ∃ es ns, w = Val.dict [("email", Val.str es), ("name", Val.str ns)] := by
  induction l generalizing l' with
  | nil =>
      simp [mapNR] at h
      subst h; simp
  | cons x xs ih =>
      simp only [mapNR] at h
      cases hx : normalize_recipient x with
      | error e => simp [hx] at h
      | ok w =>
          simp only [hx] at h
          cases hxs : mapNR xs with
          | error e => simp [hxs] at h
          | ok ws =>
              simp only [hxs] at h
              cases h
              intro u hu
              rcases List.mem_cons.mp hu with h1 | h2
              · subst h1
                exact nr_good (hg x (List.mem_cons_self x xs)) hx
              · exact ih (fun y hy => hg y (List.mem_cons_of_mem x hy)) hxs u h2

/-- The recipients supplied under field `f` of the draft all produce
string-valued participants: list entries and single scalars are
`goodRecip`. -/
def goodFieldInput (d : Dict) (f : String) : Prop :=
  ∀ v, List.lookup f d = some v → pyTruthy v = true →
    (∀ src, v = Val.list src → ∀ x ∈ src, goodRecip x)
    ∧ ((∀ src, v ≠ Val.list src) → goodRecip v)

/-- What the output list of one `normField` pass satisfies, given the
case-analysis facts from `normField_ok`. -/
theorem normField_l_props {d : Dict} {f : String} {l : List Val}
    (habs : List.lookup f d = Option.none → l = [])
    (hfalsy : ∀ v, List.lookup f d = some v → pyTruthy v = false → l = [])
    (hlist : ∀ src, List.lookup f d = some (Val.list src) →
       pyTruthy (Val.list src) = true → mapNR src = Except.ok l)
    (hscalar : ∀ v, List.lookup f d = some v → pyTruthy v = true →
       (∀ src, v ≠ Val.list src) → ∃ w, normalize_recipient v = Except.ok w ∧ l = [w]) :
    (∀ w ∈ l, ∃ e n, w = Val.dict [("email", e), ("name", n)])
    ∧ (goodFieldInput d f →
        ∀ w ∈ l, ∃ es ns, w = Val.dict [("email", Val.str es), ("name", Val.str ns)])
    ∧ mapNR l = Except.ok l := by
  cases hl : List.lookup f d with
  | none =>
      rw [habs hl]
      exact ⟨by simp, by simp, rfl⟩
  | some v =>
      cases ht : pyTruthy v with
      | false =>
          rw [hfalsy v hl ht]
          exact ⟨by simp, by simp, rfl⟩
      | true =>
          by_cases hl' : ∃ src, v = Val.list src
          · obtain ⟨src, rfl⟩ := hl'
            have hm := hlist src hl ht
            refine ⟨mapNR_shape hm, ?_, mapNR_fix hm⟩
            intro hgood
            exact mapNR_good (fun x hx => (hgood _ hl ht).1 src rfl x hx) hm
          · have hns : ∀ src, v ≠ Val.list src := fun src hv => hl' ⟨src, hv⟩
            obtain ⟨w, hw, rfl⟩ := hscalar v hl ht hns
            refine ⟨?_, ?_, ?_⟩
            · intro u hu
              rcases List.mem_singleton.mp hu with rfl
              exact nr_shape hw
            · intro hgood u hu
              rcases List.mem_singleton.mp hu with rfl
              exact nr_good ((hgood _ hl ht).2 hns) hw
            · simp [mapNR, nr_fix hw]

-- === C1 ===

/-- **C1** (counterexample): `normalize_recipient(None)` raises
`AttributeError` (there is no `isinstance` guard before `.get`), so the
claim that any non-string, non-dict value yields `{email: "", name: ""}`
and that the function never raises is false at the concrete input `None`. -/
theorem c1_normalize_recipient_not_total :
    normalize_recipient Val.none = Except.error "AttributeError"
    ∧ normalize_recipient Val.none
        ≠ Except.ok (Val.dict [("email", Val.str ""), ("name", Val.str "")]) :=
  ⟨rfl, fun h => nomatch h⟩

/-- **C1** (amended): `normalize_recipient` is total exactly on strings and
dicts: a bare string `s` returns `{email: s, name: ""}`; a dict returns
`{email: d.get("email", ""), name: d.get("name", "")}` where the
empty-string default applies only to an absent key (a present `None`
passes through unchanged); every other input (None, a number, a bool,
a list) raises `AttributeError`; and every run either returns a two-key
`{email, name}` dict or raises `AttributeError`. -/
theorem normalize_recipient_cases :
    (∀ s, normalize_recipient (Val.str s)
        = Except.ok (Val.dict [("email", Val.str s), ("name", Val.str "")]))
    ∧ (∀ d, normalize_recipient (Val.dict d)
        = Except.ok (Val.dict [("email", dictGet d "email" (Val.str "")),
                               ("name", dictGet d "name" (Val.str ""))]))
    ∧ normalize_recipient (Val.dict [("email", Val.none)])
        = Except.ok (Val.dict [("email", Val.none), ("name", Val.str "")])
    ∧ normalize_recipient Val.none = Except.error "AttributeError"
    ∧ (∀ n, normalize_recipient (Val.num n) = Except.error "AttributeError")
    ∧ (∀ b, normalize_recipient (Val.bool b) = Except.error "AttributeError")
    ∧ (∀ l, normalize_recipient (Val.list l) = Except.error "AttributeError")
    ∧ (∀ v, (∃ e n, normalize_recipient v = Except.ok (Val.dict [("email", e), ("name", n)]))
          ∨ normalize_recipient v = Except.error "AttributeError") := by
  refine ⟨fun s => rfl, fun d => rfl, rfl, rfl, fun n => rfl, fun b => rfl, fun l => rfl, ?_⟩
  intro v
  cases v with
  | str s => exact Or.inl ⟨_, _, rfl⟩
  | dict d => exact Or.inl ⟨_, _, rfl⟩
  | none => exact Or.inr rfl
  | bool b => exact Or.inr rfl
  | num n => exact Or.inr rfl
  | list l => exact Or.inr rfl

-- === C2 ===

/-- **C2** (counterexample): the claim's "(both strings)" fails — a dict
recipient whose `email` value is a number is passed through by
`d.get("email", "")`, so the normalized participant's `email` is not a
string; moreover an entry that is neither a string nor a dict (e.g. `None`
inside the `to` list) makes `normalize_draft` raise instead of returning
the claimed shape. -/
theorem c2_recipient_fields_not_always_strings :
    normalize_draft [("to", Val.list [Val.dict [("email", Val.num 42)]])]
      = Except.ok [("to", Val.list [Val.dict [("email", Val.num 42), ("name", Val.str "")]]),
                   ("cc", Val.list []), ("bcc", Val.list [])]
    ∧ vIsStr (Val.num 42) = false
    ∧ normalize_draft [("to", Val.list [Val.none])] = Except.error "AttributeError" :=
  ⟨rfl, rfl, rfl⟩

/-- **C2** (amended): whenever `normalize_draft(d)` returns, the result has
keys `to`, `cc`, `bcc` mapped to lists whose every element is a dict with
exactly the keys `email` and `name`; both values are strings provided the
corresponding input entries were bare strings or dicts with string-valued
(or absent) `email`/`name`; an absent or falsy field yields `[]`, a list is
mapped elementwise through `normalize_recipient`, and a single truthy
scalar is wrapped into a one-element list. -/
theorem normalize_draft_recipient_fields :
    ∀ (d r : Dict) (f : String), normalize_draft d = Except.ok r →
    (f = "to" ∨ f = "cc" ∨ f = "bcc") →
    ∃ l : List Val,
      List.lookup f r = some (Val.list l)
      ∧ (∀ w ∈ l, ∃ e n, w = Val.dict [("email", e), ("name", n)])
      ∧ (goodFieldInput d f →
          ∀ w ∈ l, ∃ es ns, w = Val.dict [("email", Val.str es), ("name", Val.str ns)])
      ∧ (List.lookup f d = Option.none → l = [])
      ∧ (∀ v, List.lookup f d = some v → pyTruthy v = false → l = [])
      ∧ (∀ src, List.lookup f d = some (Val.list src) → pyTruthy (Val.list src) = true →
           mapNR src = Except.ok l)
      ∧ (∀ v, List.lookup f d = some v → pyTruthy v = true → (∀ src, v ≠ Val.list src) →
           ∃ w, normalize_recipient v = Except.ok w ∧ l = [w]) := by
  intro d r f h hf
  obtain ⟨n1, n2, n3, h1, h2, h3, h4⟩ := normalize_draft_decomp h
  rcases hf with rfl | rfl | rfl
  · obtain ⟨l, hn1, habs, hfalsy, hlist, hscalar⟩ := normField_ok h1
    have hr : List.lookup "to" r = some (Val.list l) := by
      rw [normFrom_lookup_ne h4 "to" (by decide),
          normField_lookup_ne h3 "to" (by decide),
          normField_lookup_ne h2 "to" (by decide), hn1]
      exact lookup_dset_self d "to" (Val.list l)
    obtain ⟨hshape, hgood, -⟩ := normField_l_props habs hfalsy hlist hscalar
    exact ⟨l, hr, hshape, hgood, habs, hfalsy, hlist, hscalar⟩
  · obtain ⟨l, hn2, habs, hfalsy, hlist, hscalar⟩ := normField_ok h2
    have hr : List.lookup "cc" r = some (Val.list l) := by
      rw [normFrom_lookup_ne h4 "cc" (by decide),
          normField_lookup_ne h3 "cc" (by decide), hn2]
      exact lookup_dset_self n1 "cc" (Val.list l)
    obtain ⟨hshape, hgood, -⟩ := normField_l_props habs hfalsy hlist hscalar
    exact ⟨l, hr, hshape, hgood, habs, hfalsy, hlist, hscalar⟩
  · obtain ⟨l, hn3, habs, hfalsy, hlist, hscalar⟩ := normField_ok h3
    have hr : List.lookup "bcc" r = some (Val.list l) := by
      rw [normFrom_lookup_ne h4 "bcc" (by decide), hn3]
      exact lookup_dset_self n2 "bcc" (Val.list l)
    obtain ⟨hshape, hgood, -⟩ := normField_l_props habs hfalsy hlist hscalar
    exact ⟨l, hr, hshape, hgood, habs, hfalsy, hlist, hscalar⟩

-- === C3 ===

/-- **C3** (counterexample): a present-but-falsy `"from"` (here `None`) is
copied through unchanged by `draft.copy()` and skipped by the
`if "from" in draft and draft["from"]:` guard, so the result's `"from"`
is `None`, not a single-element list of a normalized Participant. -/
theorem c3_falsy_from_copied_through :
    normalize_draft [("from", Val.none)]
      = Except.ok [("from", Val.none), ("to", Val.list []),
                   ("cc", Val.list []), ("bcc", Val.list [])]
    ∧ vIsSingletonList Val.none = false :=
  ⟨rfl, rfl⟩

/-- **C3** (amended): whenever `normalize_draft(d)` returns: if `"from"` is
absent in `d` it is absent in the result; if present and truthy it becomes
a one-element list of a normalized Participant (a list input contributes
its first element, a scalar is wrapped); but if present and falsy it is
copied through unchanged. -/
theorem normalize_draft_from_invariant :
    ∀ d r : Dict, normalize_draft d = Except.ok r →
    (List.lookup "from" d = Option.none → List.lookup "from" r = Option.none)
    ∧ (∀ v, List.lookup "from" d = some v → pyTruthy v = false →
        List.lookup "from" r = some v)
    ∧ (∀ v, List.lookup "from" d = some v → pyTruthy v = true →
        ∃ w e n, List.lookup "from" r = some (Val.list [w])
          ∧ w = Val.dict [("email", e), ("name", n)]
          ∧ (∀ x t, v = Val.list (x :: t) → normalize_recipient x = Except.ok w)
          ∧ ((∀ src, v ≠ Val.list src) → normalize_recipient v = Except.ok w)) := by
  intro d r h
  obtain ⟨n1, n2, n3, h1, h2, h3, h4⟩ := normalize_draft_decomp h
  have hn3 : List.lookup "from" n3 = List.lookup "from" d := by
    rw [normField_lookup_ne h3 "from" (by decide),
        normField_lookup_ne h2 "from" (by decide),
        normField_lookup_ne h1 "from" (by decide)]
  refine ⟨?_, ?_, ?_⟩
  · intro habs
    rw [(normFrom_ok h4).1 habs, hn3, habs]
  · intro v hv ht
    rw [(normFrom_ok h4).2.1 v hv ht, hn3, hv]
  · intro v hv ht
    obtain ⟨w, hr, hx, hs⟩ := (normFrom_ok h4).2.2 v hv ht
    have hwshape : ∃ e n, w = Val.dict [("email", e), ("name", n)] := by
      by_cases hl' : ∃ src, v = Val.list src
      · obtain ⟨src, rfl⟩ := hl'
        cases src with
        | nil => rw [pyTruthy] at ht; simp at ht
        | cons x t => exact nr_shape (hx x t rfl)
      · exact nr_shape (hs fun src hsrc => hl' ⟨src, hsrc⟩)
    obtain ⟨e, n, rfl⟩ := hwshape
    refine ⟨_, e, n, ?_, rfl, hx, hs⟩
    rw [hr]
    exact lookup_dset_self n3 "from" _

-- === C10: idempotence ===

theorem normalize_draft_fields_fixed {d r : Dict} (h : normalize_draft d = Except.ok r) :
    (∃ lt, List.lookup "to" r = some (Val.list lt) ∧ mapNR lt = Except.ok lt)
    ∧ (∃ lc, List.lookup "cc" r = some (Val.list lc) ∧ mapNR lc = Except.ok lc)
    ∧ (∃ lb, List.lookup "bcc" r = some (Val.list lb) ∧ mapNR lb = Except.ok lb)
    ∧ (List.lookup "from" r = Option.none
       ∨ (∃ v, List.lookup "from" r = some v ∧ pyTruthy v = false)
       ∨ (∃ w, List.lookup "from" r = some (Val.list [w])
             ∧ normalize_recipient w = Except.ok w)) := by
  obtain ⟨n1, n2, n3, h1, h2, h3, h4⟩ := normalize_draft_decomp h
  refine ⟨?_, ?_, ?_, ?_⟩
  · obtain ⟨l, hn1, habs, hfalsy, hlist, hscalar⟩ := normField_ok h1
    refine ⟨l, ?_, (normField_l_props habs hfalsy hlist hscalar).2.2⟩
    rw [normFrom_lookup_ne h4 "to" (by decide),
        normField_lookup_ne h3 "to" (by decide),
        normField_lookup_ne h2 "to" (by decide), hn1]
    exact lookup_dset_self d "to" (Val.list l)
  · obtain ⟨l, hn2, habs, hfalsy, hlist, hscalar⟩ := normField_ok h2
    refine ⟨l, ?_, (normField_l_props habs hfalsy hlist hscalar).2.2⟩
    rw [normFrom_lookup_ne h4 "cc" (by decide),
        normField_lookup_ne h3 "cc" (by decide), hn2]
    exact lookup_dset_self n1 "cc" (Val.list l)
  · obtain ⟨l, hn3, habs, hfalsy, hlist, hscalar⟩ := normField_ok h3
    refine ⟨l, ?_, (normField_l_props habs hfalsy hlist hscalar).2.2⟩
    rw [normFrom_lookup_ne h4 "bcc" (by decide), hn3]
    exact lookup_dset_self n2 "bcc" (Val.list l)
  · have hn3 : List.lookup "from" n3 = List.lookup "from" d := by
      rw [normField_lookup_ne h3 "from" (by decide),
          normField_lookup_ne h2 "from" (by decide),
          normField_lookup_ne h1 "from" (by decide)]
    cases hl : List.lookup "from" d with
    | none =>
        left
        rw [(normFrom_ok h4).1 hl, hn3, hl]
    | some v =>
        cases ht : pyTruthy v with
        | false =>
            right; left
            exact ⟨v, by rw [(normFrom_ok h4).2.1 v hl ht, hn3, hl], ht⟩
        | true =>
            right; right
            obtain ⟨w, hr, hx, hs⟩ := (normFrom_ok h4).2.2 v hl ht
            have hwfix : normalize_recipient w = Except.ok w := by
              by_cases hl' : ∃ src, v = Val.list src
              · obtain ⟨src, rfl⟩ := hl'
                cases src with
                | nil => rw [pyTruthy] at ht; simp at ht
                | cons x t => exact nr_fix (hx x t rfl)
              · exact nr_fix (hs fun src hsrc => hl' ⟨src, hsrc⟩)
            refine ⟨w, ?_, hwfix⟩
            rw [hr]
            exact lookup_dset_self n3 "from" _

theorem normField_of_fixed {dd acc : Dict} {f : String} {l : List Val}
    (hl : List.lookup f dd = some (Val.list l)) (hm : mapNR l = Except.ok l) :
    normField dd acc f = Except.ok (dset acc f (Val.list l)) := by
  cases l with
  | nil => rw [normField_eq_falsy hl rfl]
  | cons x t =>
      rw [normField_eq_list hl rfl, hm]

/-- **C10**: `normalize_draft` is idempotent — whenever it returns a value,
running it again on its own output returns that output unchanged
(structural equality of the association lists, which implies Python `==`). -/
theorem normalize_draft_idem :
    ∀ d r : Dict, normalize_draft d = Except.ok r → normalize_draft r = Except.ok r := by
  intro d r h
  obtain ⟨⟨lt, hto, hmt⟩, ⟨lc, hcc, hmc⟩, ⟨lb, hbcc, hmb⟩, hfrom⟩ :=
    normalize_draft_fields_fixed h
  have e1 : normField r r "to" = Except.ok r := by
    rw [normField_of_fixed hto hmt, dset_self_eq r "to" _ hto]
  have e2 : normField r r "cc" = Except.ok r := by
    rw [normField_of_fixed hcc hmc, dset_self_eq r "cc" _ hcc]
  have e3 : normField r r "bcc" = Except.ok r := by
    rw [normField_of_fixed hbcc hmb, dset_self_eq r "bcc" _ hbcc]
  have e4 : normFrom r r = Except.ok r := by
    rcases hfrom with habs | ⟨v, hv, ht⟩ | ⟨w, hw, hwfix⟩
    · exact normFrom_eq_absent habs
    · exact normFrom_eq_falsy hv ht
    · rw [normFrom_eq_list hw]
      simp only [hwfix]
      rw [dset_self_eq r "from" _ hw]
  simp only [normalize_draft, e1, e2, e3]
  exact e4

/-- Witness for C10 at a concrete draft. -/
theorem normalize_draft_idem_witness :
    normalize_draft
        [("to", Val.list [Val.dict [("email", Val.str "a@b.c"), ("name", Val.str "")]]),
         ("cc", Val.list []), ("bcc", Val.list [])]
      = Except.ok
        [("to", Val.list [Val.dict [("email", Val.str "a@b.c"), ("name", Val.str "")]]),
         ("cc", Val.list []), ("bcc", Val.list [])] :=
  normalize_draft_idem [("to", Val.str "a@b.c")] _ rfl

/-- Witness for C2 at a concrete draft whose `to` field is a bare string list. -/
theorem normalize_draft_recipient_fields_witness :
    ∃ l : List Val,
      List.lookup "to"
          [("to", Val.list [Val.dict [("email", Val.str "x@y"), ("name", Val.str "")]]),
           ("cc", Val.list []), ("bcc", Val.list [])]
        = some (Val.list l)
      ∧ (∀ w ∈ l, ∃ e n, w = Val.dict [("email", e), ("name", n)])
      ∧ (goodFieldInput [("to", Val.list [Val.str "x@y"])] "to" →
          ∀ w ∈ l, ∃ es ns, w = Val.dict [("email", Val.str es), ("name", Val.str ns)])
      ∧ (List.lookup "to" [("to", Val.list [Val.str "x@y"])] = Option.none → l = [])
      ∧ (∀ v, List.lookup "to" [("to", Val.list [Val.str "x@y"])] = some v →
           pyTruthy v = false → l = [])
      ∧ (∀ src, List.lookup "to" [("to", Val.list [Val.str "x@y"])] = some (Val.list src) →
           pyTruthy (Val.list src) = true → mapNR src = Except.ok l)
      ∧ (∀ v, List.lookup "to" [("to", Val.list [Val.str "x@y"])] = some v →
           pyTruthy v = true → (∀ src, v ≠ Val.list src) →
           ∃ w, normalize_recipient v = Except.ok w ∧ l = [w]) :=
  normalize_draft_recipient_fields [("to", Val.list [Val.str "x@y"])]
    [("to", Val.list [Val.dict [("email", Val.str "x@y"), ("name", Val.str "")]]),
     ("cc", Val.list []), ("bcc", Val.list [])] "to" rfl (Or.inl rfl)

/-- Witness for C3 at a concrete draft with a truthy scalar `from`. -/
theorem normalize_draft_from_invariant_witness :
    ∃ w e n,
      List.lookup "from"
          [("from", Val.list [Val.dict [("email", Val.str "p@q"), ("name", Val.str "")]]),
           ("to", Val.list []), ("cc", Val.list []), ("bcc", Val.list [])]
        = some (Val.list [w])
      ∧ w = Val.dict [("email", e), ("name", n)]
      ∧ (∀ x t, Val.str "p@q" = Val.list (x :: t) → normalize_recipient x = Except.ok w)
      ∧ ((∀ src, Val.str "p@q" ≠ Val.list src) → normalize_recipient (Val.str "p@q") = Except.ok w) :=
  (normalize_draft_from_invariant [("from", Val.str "p@q")]
    [("from", Val.list [Val.dict [("email", Val.str "p@q"), ("name", Val.str "")]]),
     ("to", Val.list []), ("cc", Val.list []), ("bcc", Val.list [])] rfl).2.2
    (Val.str "p@q") rfl rfl

-- === C5: parse_draft_response (src/draft-email.py) ===

/-- Python `str.isspace` characters relevant to `str.strip()` (ASCII range). -/
def pyIsSpace (c : Char) : Bool :=
  c == ' ' || c == '\t' || c == '\n' || c == '\r' || c == Char.ofNat 11 || c == Char.ofNat 12

/-- Python `s.strip()`: remove leading and trailing whitespace. -/
def pyStrip (s : String) : String :=
  String.mk (((s.data.dropWhile pyIsSpace).reverse.dropWhile pyIsSpace).reverse)

/-- `draft-email.parse_draft_response`, parametrized over the external
`json.loads` (an opaque stdlib routine): parse the *stripped* response; on a
`JSONDecodeError` (modelled as `Option.none`) fall back to a dict whose
`body` is the entire *un-stripped* original response with empty
`to`/`cc`/`subject`. -/
def parse_draft_response (jsonLoads : String → Option Val) (response : String) : Val :=
  match jsonLoads (pyStrip response) with
  | some v => v
  | Option.none =>
      Val.dict [("body", Val.str response), ("to", Val.list []),
                ("cc", Val.list []), ("subject", Val.str "")]

/-- **C5**: `parse_draft_response` recovers from malformed JSON without
raising: when the stripped input fails to parse it returns exactly
`{"body": <original un-stripped input>, "to": [], "cc": [], "subject": ""}`,
and when the stripped input parses to `v` it returns `v`. -/
theorem parse_draft_response_spec :
    ∀ (jsonLoads : String → Option Val) (response : String),
      (jsonLoads (pyStrip response) = Option.none →
        parse_draft_response jsonLoads response
          = Val.dict [("body", Val.str response), ("to", Val.list []),
                      ("cc", Val.list []), ("subject", Val.str "")])
      ∧ (∀ v, jsonLoads (pyStrip response) = some v →
          parse_draft_response jsonLoads response = v) := by
  intro jsonLoads response
  constructor
  · intro h
    unfold parse_draft_response
    rw [h]
  · intro v h
    unfold parse_draft_response
    rw [h]

/-- Witness for C5: a parser that rejects everything falls back to the
raw-body dict, preserving the un-stripped original text. -/
theorem parse_draft_response_spec_witness :
    parse_draft_response (fun _ => Option.none) "  not json  "
      = Val.dict [("body", Val.str "  not json  "), ("to", Val.list []),
                  ("cc", Val.list []), ("subject", Val.str "")] :=
  (parse_draft_response_spec (fun _ => Option.none) "  not json  ").1 rfl

-- === C9: Display-Width Text Engine (spec §4.2; not present under src/) ===

/-- Modelled from the spec: a character occupies 2 terminal columns if it is
East-Asian Wide/Fullwidth or in the common emoji ranges (≥ U+1F300), else
1 column (spec §4.2, `displayWidth`). -/
def isWideChar (c : Char) : Bool :=
  let n := c.toNat
  (decide (0x1100 ≤ n) && decide (n ≤ 0x115F))
  || (decide (0x2E80 ≤ n) && decide (n ≤ 0x303E))
  || (decide (0x3041 ≤ n) && decide (n ≤ 0x33FF))
  || (decide (0x3400 ≤ n) && decide (n ≤ 0x4DBF))
  || (decide (0x4E00 ≤ n) && decide (n ≤ 0x9FFF))
  || (decide (0xA000 ≤ n) && decide (n ≤ 0xA4CF))
  || (decide (0xAC00 ≤ n) && decide (n ≤ 0xD7A3))
  || (decide (0xF900 ≤ n) && decide (n ≤ 0xFAFF))
  || (decide (0xFE30 ≤ n) && decide (n ≤ 0xFE4F))
  || (decide (0xFF00 ≤ n) && decide (n ≤ 0xFF60))
  || (decide (0xFFE0 ≤ n) && decide (n ≤ 0xFFE6))
  || decide (0x1F300 ≤ n)

/-- Display width of one character: 2 for wide glyphs, else 1. -/
def charWidth (c : Char) : Nat := if isWideChar c then 2 else 1

/-- Display width of a character sequence: sum of character widths. -/
def listWidth : List Char → Nat
  | [] => 0
  | c :: cs => charWidth c + listWidth cs

/-- Modelled from the spec: `displayWidth(s)` sums the per-character
column widths (spec §4.2). -/
def displayWidth (s : String) : Nat := listWidth s.data

/-- The character walk of `truncate`: include each character only if it
fits whole in the remaining budget, stop at the first that does not. -/
def truncGo : List Char → Nat → List Char
  | [], _ => []
  | c :: cs, budget =>
      if charWidth c ≤ budget then c :: truncGo cs (budget - charWidth c) else []

/-- Modelled from the spec: `truncate(text, maxWidth)` returns the text
unchanged when it fits, else walks characters accumulating display width,
stops before exceeding `maxWidth - 3` and appends `"..."` (spec §4.2). -/
def truncate (s : String) (maxWidth : Nat) : String :=
  if displayWidth s ≤ maxWidth then s
  else String.mk (truncGo s.data (maxWidth - 3)) ++ "..."

theorem listWidth_append (a b : List Char) :
    listWidth (a ++ b) = listWidth a + listWidth b := by
  induction a with
  | nil => simp [listWidth]
  | cons c cs ih => simp [listWidth, ih, Nat.add_assoc]

theorem truncGo_width (cs : List Char) (b : Nat) : listWidth (truncGo cs b) ≤ b := by
  induction cs generalizing b with
  | nil => simp [truncGo, listWidth]
  | cons c cs ih =>
      by_cases h : charWidth c ≤ b
      · simp only [truncGo, h, if_true, listWidth]
        have := ih (b - charWidth c)
        omega
      · simp [truncGo, h, listWidth]

theorem truncGo_pre (cs : List Char) (b : Nat) : ∃ t, cs = truncGo cs b ++ t := by
  induction cs generalizing b with
  | nil => exact ⟨[], rfl⟩
  | cons c cs ih =>
      by_cases h : charWidth c ≤ b
      · obtain ⟨t, ht⟩ := ih (b - charWidth c)
        exact ⟨t, by simp [truncGo, h]; exact ht⟩
      · exact ⟨c :: cs, by simp [truncGo, h]⟩

theorem displayWidth_mk_dots (l : List Char) :
    displayWidth (String.mk l ++ "...") = listWidth l + 3 := by
  have hd : (String.mk l ++ "...").data = l ++ ['.', '.', '.'] := rfl
  unfold displayWidth
  rw [hd, listWidth_append]
  rfl

/-- **C9** (counterexample): for `maxWidth = 2` and the too-wide input
`"abcd"`, the budget `maxWidth - 3` admits no characters and the result is
`"..."` of display width 3 > 2, so "the display width of the result never
exceeds maxWidth" is false as stated. -/
theorem c9_truncate_exceeds_small_bound :
    truncate "abcd" 2 = "..."
    ∧ displayWidth (truncate "abcd" 2) = 3
    ∧ ¬ displayWidth (truncate "abcd" 2) ≤ 2 := by
  refine ⟨rfl, rfl, by decide⟩

/-- **C9** (amended): if the text fits it is returned unchanged; otherwise
the result is a prefix of the text (each character included only if it fits
whole, so no double-width glyph is split) followed by `"..."`, with the
prefix's width at most `maxWidth - 3`; and for every `maxWidth ≥ 3` the
result's display width never exceeds `maxWidth` (for `maxWidth < 3` the
bare ellipsis already has width 3). -/
theorem truncate_spec :
    ∀ (s : String) (maxWidth : Nat),
      (displayWidth s ≤ maxWidth → truncate s maxWidth = s)
      ∧ (¬ displayWidth s ≤ maxWidth →
          ∃ pre rest, s.data = pre ++ rest
            ∧ truncate s maxWidth = String.mk pre ++ "..."
            ∧ listWidth pre ≤ maxWidth - 3)
      ∧ (3 ≤ maxWidth → displayWidth (truncate s maxWidth) ≤ maxWidth) := by
  intro s maxWidth
  refine ⟨?_, ?_, ?_⟩
  · intro h
    simp [truncate, h]
  · intro h
    obtain ⟨t, ht⟩ := truncGo_pre s.data (maxWidth - 3)
    refine ⟨truncGo s.data (maxWidth - 3), t, ht, ?_, truncGo_width s.data (maxWidth - 3)⟩
    simp [truncate, h]
  · intro h3
    by_cases h : displayWidth s ≤ maxWidth
    · simp [truncate, h]
    · simp only [truncate, h, if_false]
      rw [displayWidth_mk_dots]
      have := truncGo_width s.data (maxWidth - 3)
      omega

/-- Witness for C9: a fitting string is unchanged, and a too-long string is
cut to within the bound. -/
theorem truncate_spec_witness :
    truncate "ab" 5 = "ab" ∧ displayWidth (truncate "abcdefghij" 5) ≤ 5 :=
  ⟨(truncate_spec "ab" 5).1 (by decide), (truncate_spec "abcdefghij" 5).2.2 (by decide)⟩

-- === C8: format_thread (src/draft-email.py) ===

mutual

/-- Structural equality of Python values (used for `name != email`, which
per the Message shape of spec §3 compares strings, where it coincides with
Python `==`). -/
def vEq : Val → Val → Bool
  | Val.none, Val.none => true
  | Val.bool a, Val.bool b => a == b
  | Val.num a, Val.num b => a == b
  | Val.str a, Val.str b => a == b
  | Val.list a, Val.list b => vEqList a b
  | Val.dict a, Val.dict b => vEqDict a b
  | _, _ => false

/-- Elementwise `vEq` on lists. -/
def vEqList : List Val → List Val → Bool
  | [], [] => true
  | a :: as, b :: bs => vEq a b && vEqList as bs
  | _, _ => false

/-- Pairwise `vEq` on dict entries. -/
def vEqDict : List (String × Val) → List (String × Val) → Bool
  | [], [] => true
  | (k, a) :: as, (k2, b) :: bs => k == k2 && vEq a b && vEqDict as bs
  | _, _ => false

end

/-- Python `str()` restricted to scalars; the formatter only stringifies
participant fields, subjects and bodies, which are strings per the
Message shape of spec §3 (containers get a placeholder here). -/
def pyStr : Val → String
  | Val.str s => s
  | Val.num n => toString n
  | Val.bool true => "True"
  | Val.bool false => "False"
  | Val.none => "None"
  | Val.list _ => "<list>"
  | Val.dict _ => "<dict>"

/-- `m.get(k, [])` for the participant-list fields; per spec §3 these
fields hold lists. -/
def pyGetList (m : Dict) (k : String) : List Val :=
  match dictGet m k (Val.list []) with
  | Val.list l => l
  | _ => []

/-- The integer value of a date field; per spec §3 `date` is an integer
unix timestamp or 0/absent. -/
def valInt : Val → Int
  | Val.num n => n
  | _ => 0

/-- `email_utils.format_participant`: `"name <email>"` when the name is
truthy and differs from the email, else the email alone. -/
def format_participant (p : Dict) : String :=
  let name := dictGet p "name" (Val.str "")
  let email := dictGet p "email" (Val.str "")
  if pyTruthy name && !vEq name email then
    pyStr name ++ " <" ++ pyStr email ++ ">"
  else pyStr email

/-- A participant entry as consumed by the formatter; per spec §3
participants are dicts. -/
def formatParticipantV : Val → String
  | Val.dict d => format_participant d
  | _ => ""

/-- `draft-email.format_message`, parametrized by the external
`datetime.fromtimestamp(..).strftime(..)` (an opaque, locale/timezone
dependent stdlib routine). -/
def format_message (fmtDate : Int → String) (m : Dict) : String :=
  let from_list := pyGetList m "from"
  let to_list := pyGetList m "to"
  let cc_list := pyGetList m "cc"
  let date_ts := dictGet m "date" (Val.num 0)
  let subject := dictGet m "subject" (Val.str "(no subject)")
  let body :=
    let c := dictGet m "conversation" (Val.str "")
    if pyTruthy c then c else dictGet m "snippet" (Val.str "")
  let date_str := if pyTruthy date_ts then fmtDate (valInt date_ts) else "Unknown"
  let from_str := String.intercalate ", " (from_list.map formatParticipantV)
  let to_str := String.intercalate ", " (to_list.map formatParticipantV)
  let lines := ["From: " ++ from_str, "To: " ++ to_str]
  let lines := if !cc_list.isEmpty then
      lines ++ ["Cc: " ++ String.intercalate ", " (cc_list.map formatParticipantV)]
    else lines
  let lines := lines ++ ["Date: " ++ date_str, "Subject: " ++ pyStr subject, "",
                         pyStrip (pyStr body)]
  String.intercalate "\n" lines

/-- The sort key `lambda m: m.get("date", 0)`. -/
def msgDate (m : Dict) : Int := valInt (dictGet m "date" (Val.num 0))

/-- `sorted(messages, key=lambda m: m.get("date", 0))`: Python's stable
sort by the date key, modelled as a stable merge sort. -/
def sortMessages (ms : List Dict) : List Dict :=
  ms.mergeSort (fun a b => decide (msgDate a ≤ msgDate b))

/-- The enumerated per-message blocks of `format_thread`:
`--- Message i of N ---`, the formatted message, and a blank separator,
with `i` counting from 1. -/
def threadBlocks (fmtDate : Int → String) (total : Nat) : Nat → List Dict → List String
  | _, [] => []
  | i, m :: rest =>
      ("--- Message " ++ toString i ++ " of " ++ toString total ++ " ---")
      :: format_message fmtDate m :: ""
      :: threadBlocks fmtDate total (i + 1) rest

/-- `draft-email.format_thread`: header line, then the messages sorted by
date (oldest first), each as a labelled block. -/
def format_thread (fmtDate : Int → String) (thread : Dict) (messages : List Dict) : String :=
  let sorted_msgs := sortMessages messages
  String.intercalate "\n"
    (("=== Email Thread: " ++ pyStr (dictGet thread "subject" (Val.str "(no subject)"))
        ++ " ===\n")
     :: threadBlocks fmtDate sorted_msgs.length 1 sorted_msgs)

/-- **C8**: `format_thread` renders the messages in chronological ascending
order of their `date` (missing dates counting as 0): the rendered sequence
is a permutation of the input that is sorted by date, any earlier index has
a date no larger than any later index, and the output is exactly the header
followed by the `--- Message i of N ---` blocks with `i` counting from 1
in that sorted order. -/
theorem format_thread_chronological :
    ∀ (fmtDate : Int → String) (thread : Dict) (messages : List Dict),
      (sortMessages messages).Perm messages
      ∧ (sortMessages messages).Pairwise (fun a b => msgDate a ≤ msgDate b)
      ∧ (∀ (i j : Fin (sortMessages messages).length), i ≤ j →
          msgDate ((sortMessages messages).get i) ≤ msgDate ((sortMessages messages).get j))
      ∧ format_thread fmtDate thread messages
          = String.intercalate "\n"
              (("=== Email Thread: "
                  ++ pyStr (dictGet thread "subject" (Val.str "(no subject)")) ++ " ===\n")
               :: threadBlocks fmtDate (sortMessages messages).length 1
                    (sortMessages messages)) := by
  intro fmtDate thread messages
  have hpair : (sortMessages messages).Pairwise (fun a b => msgDate a ≤ msgDate b) := by
    have hs := @List.sorted_mergeSort _ (fun a b => decide (msgDate a ≤ msgDate b))
      (fun a b c hab hbc =>
        decide_eq_true (le_trans (of_decide_eq_true hab) (of_decide_eq_true hbc)))
      (fun a b => by
        rcases le_total (msgDate a) (msgDate b) with h | h
        · simp [decide_eq_true h]
        · simp [decide_eq_true h])
      messages
    exact hs.imp (fun h => of_decide_eq_true h)
  refine ⟨List.mergeSort_perm _ _, hpair, ?_, rfl⟩
  intro i j hij
  rcases lt_or_eq_of_le hij with hlt | heq
  · exact List.pairwise_iff_get.mp hpair i j hlt
  · rw [heq]

-- === C6: atomic_write (src/email_utils.py) over an explicit file system ===

/-- A single directory's state: file name to full content, in creation
order. -/
abbrev FS := List (String × String)

/-- Create or overwrite a file entry. -/
def fsSet : FS → String → String → FS
  | [], n, c => [(n, c)]
  | (n', c') :: rest, n, c =>
      if n' = n then (n, c) :: rest else (n', c') :: fsSet rest n c

/-- Delete a file entry. -/
def fsRemove (fs : FS) (n : String) : FS := fs.filter (fun p => p.1 != n)

/-- The file-system steps `atomic_write` performs:
`tempfile.NamedTemporaryFile(dir=...)` creates an empty temp file,
`tmp.write(content)` appends (possibly flushed in several chunks by the
buffered writer), and `os.replace(tmp_path, path)` atomically renames,
overwriting any existing target. -/
inductive FsOp where
  | createEmpty : String → FsOp
  | appendChunk : String → String → FsOp
  | rename : String → String → FsOp

/-- One file-system step. -/
def applyOp (fs : FS) : FsOp → FS
  | FsOp.createEmpty n => fsSet fs n ""
  | FsOp.appendChunk n c =>
      match List.lookup n fs with
      | some old => fsSet fs n (old ++ c)
      | Option.none => fs
  | FsOp.rename src dst =>
      match List.lookup src fs with
      | some content => fsSet (fsRemove fs src) dst content
      | Option.none => fs

/-- The operation sequence of `email_utils.atomic_write` with the written
content split into arbitrary buffer chunks: create the temp file in the
target's directory, write the content, then `os.replace` it onto `path`. -/
def atomic_write_ops (tmp path : String) (chunks : List String) : List FsOp :=
  FsOp.createEmpty tmp :: (chunks.map (FsOp.appendChunk tmp) ++ [FsOp.rename tmp path])

/-- `email_utils.atomic_write(path, content)`: temp file plus rename, the
content written in one `tmp.write(content)` call. -/
def atomic_write (fs : FS) (tmp path content : String) : FS :=
  (atomic_write_ops tmp path [content]).foldl applyOp fs

theorem lookup_fsSet_self (fs : FS) (n c : String) :
    List.lookup n (fsSet fs n c) = some c := by
  induction fs with
  | nil => simp [fsSet, List.lookup]
  | cons p rest ih =>
      obtain ⟨n', c'⟩ := p
      by_cases h : n' = n
      · simp [fsSet, h, List.lookup]
      · have hb : (n == n') = false := beq_eq_false_iff_ne.mpr (Ne.symm h)
        simp [fsSet, h, List.lookup, hb, ih]

theorem lookup_fsSet_ne (fs : FS) (n k c : String) (h : k ≠ n) :
    List.lookup k (fsSet fs n c) = List.lookup k fs := by
  have hb : (k == n) = false := beq_eq_false_iff_ne.mpr h
  induction fs with
  | nil => simp [fsSet, List.lookup, hb]
  | cons p rest ih =>
      obtain ⟨n₀, c₀⟩ := p
      by_cases hn : n₀ = n
      · subst hn
        simp [fsSet, List.lookup, hb]
      · simp [fsSet, hn, List.lookup, ih]

theorem lookup_fsRemove_self (fs : FS) (n : String) :
    List.lookup n (fsRemove fs n) = Option.none := by
  induction fs with
  | nil => simp [fsRemove, List.lookup]
  | cons p rest ih =>
      obtain ⟨n₀, c₀⟩ := p
      by_cases hn : n₀ = n
      · subst hn
        simp [fsRemove, List.filter] at ih ⊢
        exact ih
      · have hb : (n₀ != n) = true := by
          simp [bne_iff_ne]; exact hn
        have hb2 : (n == n₀) = false := beq_eq_false_iff_ne.mpr (Ne.symm hn)
        simp [fsRemove, List.filter, hb, List.lookup, hb2] at ih ⊢
        exact ih

theorem lookup_fsRemove_ne (fs : FS) (n k : String) (h : k ≠ n) :
    List.lookup k (fsRemove fs n) = List.lookup k fs := by
  induction fs with
  | nil => simp [fsRemove]
  | cons p rest ih =>
      obtain ⟨n₀, c₀⟩ := p
      by_cases hn : n₀ = n
      · subst hn
        have hb : (n₀ != n₀) = false := by simp
        have hb2 : (k == n₀) = false := beq_eq_false_iff_ne.mpr h
        simp [fsRemove, List.filter, hb, List.lookup, hb2] at ih ⊢
        exact ih
      · have hb : (n₀ != n) = true := by simp [bne_iff_ne]; exact hn
        simp [fsRemove, List.filter, hb, List.lookup] at ih ⊢
        cases hkn : (k == n₀) with
        | true => simp
        | false => simp [ih]

theorem writeChunks_lookup_tmp (tmp : String) :
    ∀ (chunks : List String) (fs : FS) (old : String),
      List.lookup tmp fs = some old →
      List.lookup tmp ((chunks.map (FsOp.appendChunk tmp)).foldl applyOp fs)
        = some (chunks.foldl (fun acc c => acc ++ c) old) := by
  intro chunks
  induction chunks with
  | nil =>
      intro fs old h
      simpa using h
  | cons c cs ih =>
      intro fs old h
      have hstep : applyOp fs (FsOp.appendChunk tmp c) = fsSet fs tmp (old ++ c) := by
        simp [applyOp, h]
      simp only [List.map, List.foldl, hstep]
      exact ih (fsSet fs tmp (old ++ c)) (old ++ c) (lookup_fsSet_self fs tmp (old ++ c))

theorem writeChunks_lookup_ne (tmp k : String) (hk : k ≠ tmp) :
    ∀ (chunks : List String) (fs : FS),
      List.lookup k ((chunks.map (FsOp.appendChunk tmp)).foldl applyOp fs)
        = List.lookup k fs := by
  intro chunks
  induction chunks with
  | nil => intro fs; rfl
  | cons c cs ih =>
      intro fs
      simp only [List.map, List.foldl]
      cases h : List.lookup tmp fs with
      | none =>
          have hstep : applyOp fs (FsOp.appendChunk tmp c) = fs := by
            simp [applyOp, h]
          rw [hstep, ih fs]
      | some old =>
          have hstep : applyOp fs (FsOp.appendChunk tmp c) = fsSet fs tmp (old ++ c) := by
            simp [applyOp, h]
          rw [hstep, ih _, lookup_fsSet_ne fs tmp k (old ++ c) hk]

theorem foldl_tmp_ops_lookup_ne (tmp k : String) (hk : k ≠ tmp) :
    ∀ (ops : List FsOp) (fs : FS),
      (∀ op ∈ ops, op = FsOp.createEmpty tmp ∨ ∃ c, op = FsOp.appendChunk tmp c) →
      List.lookup k (ops.foldl applyOp fs) = List.lookup k fs := by
  intro ops
  induction ops with
  | nil => intro fs _; rfl
  | cons op rest ih =>
      intro fs hops
      have hrest : ∀ o ∈ rest, o = FsOp.createEmpty tmp ∨ ∃ c, o = FsOp.appendChunk tmp c :=
        fun o ho => hops o (List.mem_cons_of_mem op ho)
      rcases hops op (List.mem_cons_self op rest) with rfl | ⟨c, rfl⟩
      · simp only [List.foldl]
        rw [ih _ hrest]
        exact lookup_fsSet_ne fs tmp k "" hk
      · simp only [List.foldl]
        rw [ih _ hrest]
        cases h : List.lookup tmp fs with
        | none => simp [applyOp, h]
        | some old =>
            simp only [applyOp, h]
            exact lookup_fsSet_ne fs tmp k (old ++ c) hk

theorem foldl_append_str :
    ∀ (chunks : List String) (a : String),
      chunks.foldl (fun acc c => acc ++ c) a
        = a ++ chunks.foldl (fun acc c => acc ++ c) "" := by
  intro chunks
  induction chunks with
  | nil => intro a; exact (String.append_empty a).symm
  | cons c cs ih =>
      intro a
      simp only [List.foldl]
      rw [ih (a ++ c), ih ("" ++ c), String.empty_append, String.append_assoc]

theorem atomic_ops_end_state (fs : FS) (tmp path content : String) (chunks : List String)
    (htmp : List.lookup tmp fs = Option.none) (hne : tmp ≠ path)
    (hc : chunks.foldl (fun acc c => acc ++ c) "" = content) :
    List.lookup path ((atomic_write_ops tmp path chunks).foldl applyOp fs) = some content
    ∧ List.lookup tmp ((atomic_write_ops tmp path chunks).foldl applyOp fs) = Option.none := by
  have hops : (atomic_write_ops tmp path chunks).foldl applyOp fs
      = applyOp ((chunks.map (FsOp.appendChunk tmp)).foldl applyOp (fsSet fs tmp ""))
          (FsOp.rename tmp path) := by
    simp [atomic_write_ops, List.foldl_append, applyOp]
  have hmid : List.lookup tmp
      ((chunks.map (FsOp.appendChunk tmp)).foldl applyOp (fsSet fs tmp "")) = some content := by
    rw [writeChunks_lookup_tmp tmp chunks (fsSet fs tmp "") ""
        (lookup_fsSet_self fs tmp ""), hc]
  set mid := (chunks.map (FsOp.appendChunk tmp)).foldl applyOp (fsSet fs tmp "") with hmiddef
  have hfinal : (atomic_write_ops tmp path chunks).foldl applyOp fs
      = fsSet (fsRemove mid tmp) path content := by
    rw [hops]
    simp [applyOp, hmid]
  constructor
  · rw [hfinal]
    exact lookup_fsSet_self (fsRemove mid tmp) path content
  · rw [hfinal, lookup_fsSet_ne (fsRemove mid tmp) path tmp content hne]
    exact lookup_fsRemove_self mid tmp

/-- **C6**: over the explicit file-system state, a successful
`atomic_write(path, content)` leaves exactly the full content at `path`
and no temporary sibling; a fresh directory afterwards lists exactly the
target file; and — for any chunking of the buffered write — no
intermediate state changes what a reader of `path` observes, so no partial
content is ever visible at `path`.  The hypotheses are the guarantees of
`tempfile.NamedTemporaryFile`: the temp name is fresh (`lookup tmp = none`)
and distinct from the target. -/
theorem atomic_write_spec :
    ∀ (fs : FS) (tmp path content : String),
      List.lookup tmp fs = Option.none →
      tmp ≠ path →
      List.lookup path (atomic_write fs tmp path content) = some content
      ∧ List.lookup tmp (atomic_write fs tmp path content) = Option.none
      ∧ (fs = [] → atomic_write fs tmp path content = [(path, content)])
      ∧ (∀ chunks : List String, chunks.foldl (fun acc c => acc ++ c) "" = content →
          List.lookup path ((atomic_write_ops tmp path chunks).foldl applyOp fs) = some content
          ∧ List.lookup tmp ((atomic_write_ops tmp path chunks).foldl applyOp fs) = Option.none
          ∧ (∀ n, n < (atomic_write_ops tmp path chunks).length →
              List.lookup path (((atomic_write_ops tmp path chunks).take n).foldl applyOp fs)
                = List.lookup path fs)) := by
  intro fs tmp path content htmp hne
  have hone : ([content] : List String).foldl (fun acc c => acc ++ c) "" = content := by
    simp [List.foldl, String.empty_append]
  have hmain := atomic_ops_end_state fs tmp path content [content] htmp hne hone
  refine ⟨hmain.1, hmain.2, ?_, ?_⟩
  · intro hfs
    subst hfs
    have h1 : fsSet ([] : FS) tmp "" = [(tmp, "")] := rfl
    have h2 : List.lookup tmp [(tmp, "")] = some "" := by simp [List.lookup]
    have h3 : List.lookup tmp [(tmp, "" ++ content)] = some ("" ++ content) := by
      simp [List.lookup]
    simp only [atomic_write, atomic_write_ops, List.map, List.foldl, List.nil_append,
      List.cons_append, applyOp, h1, h2, h3]
    have h4 : fsSet [(tmp, "")] tmp ("" ++ content) = [(tmp, "" ++ content)] := by
      simp [fsSet]
    rw [h4]
    simp only [h3]
    have h5 : fsRemove [(tmp, "" ++ content)] tmp = [] := by
      simp [fsRemove, List.filter]
    rw [h5]
    simp [fsSet, String.empty_append]
  · intro chunks hc
    have hend := atomic_ops_end_state fs tmp path content chunks htmp hne hc
    refine ⟨hend.1, hend.2, ?_⟩
    intro n hn
    have hlen : (atomic_write_ops tmp path chunks).length
        = (FsOp.createEmpty tmp :: chunks.map (FsOp.appendChunk tmp)).length + 1 := by
      simp [atomic_write_ops]
    have hsplit : atomic_write_ops tmp path chunks
        = (FsOp.createEmpty tmp :: chunks.map (FsOp.appendChunk tmp))
            ++ [FsOp.rename tmp path] := by
      simp [atomic_write_ops]
    have hle : n ≤ (FsOp.createEmpty tmp :: chunks.map (FsOp.appendChunk tmp)).length := by
      omega
    have htake : (atomic_write_ops tmp path chunks).take n
        = (FsOp.createEmpty tmp :: chunks.map (FsOp.appendChunk tmp)).take n := by
      rw [hsplit]
      exact List.take_append_of_le_length hle
    rw [htake]
    apply foldl_tmp_ops_lookup_ne tmp path (Ne.symm hne)
    intro op hop
    have hmem : op ∈ FsOp.createEmpty tmp :: chunks.map (FsOp.appendChunk tmp) :=
      List.take_subset n _ hop
    rcases List.mem_cons.mp hmem with rfl | hmap
    · exact Or.inl rfl
    · obtain ⟨c, -, rfl⟩ := List.mem_map.mp hmap
      exact Or.inr ⟨c, rfl⟩

/-- Witness for C6 in a fresh directory. -/
theorem atomic_write_spec_witness :
    List.lookup "draft.json" (atomic_write [] "tmpXYZ" "draft.json" "hello") = some "hello"
    ∧ List.lookup "tmpXYZ" (atomic_write [] "tmpXYZ" "draft.json" "hello") = Option.none
    ∧ atomic_write [] "tmpXYZ" "draft.json" "hello" = [("draft.json", "hello")] := by
  have h := atomic_write_spec [] "tmpXYZ" "draft.json" "hello" rfl (by decide)
  exact ⟨h.1, h.2.1, h.2.2.1 rfl⟩

-- === C4: heap-level embedding of normalize_draft for the frame/aliasing claim ===

/-- An object on the Python heap; lists and dicts hold addresses of their
element objects (so sharing and mutation are observable). -/
inductive HObj where
  | hnone : HObj
  | hbool : Bool → HObj
  | hnum : Int → HObj
  | hstr : String → HObj
  | hlist : List Nat → HObj
  | hdict : List (String × Nat) → HObj
deriving DecidableEq

/-- The Python heap: a growable store of objects addressed by index. -/
structure Heap where
  cells : List HObj
deriving DecidableEq

/-- Dereference an address. -/
def Heap.read (h : Heap) (a : Nat) : Option HObj := h.cells.get? a

/-- Allocate a new object, returning its fresh address. -/
def Heap.alloc (h : Heap) (o : HObj) : Heap × Nat := (⟨h.cells ++ [o]⟩, h.cells.length)

/-- Overwrite the object at an address (in-place mutation). -/
def Heap.write (h : Heap) (a : Nat) (o : HObj) : Heap := ⟨h.cells.set a o⟩

/-- Python truthiness of a heap object. -/
def hTruthy : HObj → Bool
  | HObj.hnone => false
  | HObj.hbool b => b
  | HObj.hnum n => n != 0
  | HObj.hstr s => !s.isEmpty
  | HObj.hlist l => !l.isEmpty
  | HObj.hdict d => !d.isEmpty

/-- `d[k] = v` on dict entries holding addresses. -/
def adset : List (String × Nat) → String → Nat → List (String × Nat)
  | [], k, v => [(k, v)]
  | (k', v') :: rest, k, v =>
      if k' = k then (k, v) :: rest else (k', v') :: adset rest k v

/-- `normalized[field] = value`: an in-place dict-entry update on the heap. -/
def dsetH (h : Heap) (a : Nat) (k : String) (v : Nat) : Except String Heap :=
  match h.read a with
  | some (HObj.hdict entries) => Except.ok (h.write a (HObj.hdict (adset entries k v)))
  | _ => Except.error "TypeError"

/-- Heap-level `normalize_recipient`: reads its argument, never writes any
existing cell, and allocates the result dict (a bare string's address is
shared into the new dict, as in Python). -/
def normalize_recipientH (h : Heap) (a : Nat) : Except String (Heap × Nat) :=
  match h.read a with
  | some (HObj.hstr _) =>
      let (h1, aname) := h.alloc (HObj.hstr "")
      let (h2, ares) := h1.alloc (HObj.hdict [("email", a), ("name", aname)])
      Except.ok (h2, ares)
  | some (HObj.hdict d) =>
      let (h1, ae) := match List.lookup "email" d with
        | some ae => (h, ae)
        | Option.none => h.alloc (HObj.hstr "")
      let (h2, an) := match List.lookup "name" d with
        | some an => (h1, an)
        | Option.none => h1.alloc (HObj.hstr "")
      let (h3, ares) := h2.alloc (HObj.hdict [("email", ae), ("name", an)])
      Except.ok (h3, ares)
  | some _ => Except.error "AttributeError"
  | Option.none => Except.error "dangling address"

/-- Heap-level `[normalize_recipient(r) for r in l]`. -/
def normalize_listH (h : Heap) : List Nat → Except String (Heap × List Nat)
  | [] => Except.ok (h, [])
  | a :: rest =>
      match normalize_recipientH h a with
      | Except.error e => Except.error e
      | Except.ok (h1, r) =>
          match normalize_listH h1 rest with
          | Except.error e => Except.error e
          | Except.ok (h2, rs) => Except.ok (h2, r :: rs)

/-- Heap-level loop body of `normalize_draft` for `f ∈ {to, cc, bcc}`:
reads the original draft at `ad`, writes only the copy at `acc`. -/
def normFieldH (h : Heap) (ad acc : Nat) (f : String) : Except String Heap :=
  match h.read ad with
  | some (HObj.hdict d) =>
      match List.lookup f d with
      | some av =>
          match h.read av with
          | some o =>
              if hTruthy o then
                match o with
                | HObj.hlist elems =>
                    match normalize_listH h elems with
                    | Except.error e => Except.error e
                    | Except.ok (h1, rs) =>
                        let (h2, al) := h1.alloc (HObj.hlist rs)
                        dsetH h2 acc f al
                | _ =>
                    match normalize_recipientH h av with
                    | Except.error e => Except.error e
                    | Except.ok (h1, r) =>
                        let (h2, al) := h1.alloc (HObj.hlist [r])
                        dsetH h2 acc f al
              else
                let (h1, al) := h.alloc (HObj.hlist [])
                dsetH h1 acc f al
          | Option.none => Except.error "dangling address"
      | Option.none =>
          let (h1, al) := h.alloc (HObj.hlist [])
          dsetH h1 acc f al
  | _ => Except.error "TypeError"

/-- Heap-level `"from"` block. -/
def normFromH (h : Heap) (ad acc : Nat) : Except String Heap :=
  match h.read ad with
  | some (HObj.hdict d) =>
      match List.lookup "from" d with
      | some av =>
          match h.read av with
          | some o =>
              if hTruthy o then
                match o with
                | HObj.hlist (a0 :: _) =>
                    match normalize_recipientH h a0 with
                    | Except.error e => Except.error e
                    | Except.ok (h1, r) =>
                        let (h2, al) := h1.alloc (HObj.hlist [r])
                        dsetH h2 acc "from" al
                | HObj.hlist [] => Except.error "IndexError"
                | _ =>
                    match normalize_recipientH h av with
                    | Except.error e => Except.error e
                    | Except.ok (h1, r) =>
                        let (h2, al) := h1.alloc (HObj.hlist [r])
                        dsetH h2 acc "from" al
              else Except.ok h
          | Option.none => Except.error "dangling address"
      | Option.none => Except.ok h
  | _ => Except.error "TypeError"

/-- Heap-level `normalize_draft`: `normalized = draft.copy()` allocates the
shallow copy first (the only cell ever written), then the four field
passes run in order and the copy's address is returned. -/
def normalize_draftH (h : Heap) (ad : Nat) : Except String (Heap × Nat) :=
  match h.read ad with
  | some (HObj.hdict entries) =>
      let (h0, acc) := h.alloc (HObj.hdict entries)
      match normFieldH h0 ad acc "to" with
      | Except.error e => Except.error e
      | Except.ok h1 =>
          match normFieldH h1 ad acc "cc" with
          | Except.error e => Except.error e
          | Except.ok h2 =>
              match normFieldH h2 ad acc "bcc" with
              | Except.error e => Except.error e
              | Except.ok h3 =>
                  match normFromH h3 ad acc with
                  | Except.error e => Except.error e
                  | Except.ok h4 => Except.ok (h4, acc)
  | _ => Except.error "AttributeError"

/-- The heap grew by pure allocation: old cells are a prefix. -/
def heapExt (h h' : Heap) : Prop := ∃ ext, h'.cells = h.cells ++ ext

theorem heapExt_refl (h : Heap) : heapExt h h := ⟨[], by simp⟩

theorem heapExt_trans {h1 h2 h3 : Heap} (a : heapExt h1 h2) (b : heapExt h2 h3) :
    heapExt h1 h3 := by
  obtain ⟨e1, he1⟩ := a
  obtain ⟨e2, he2⟩ := b
  exact ⟨e1 ++ e2, by rw [he2, he1, List.append_assoc]⟩

theorem heapExt_len {h h' : Heap} (he : heapExt h h') :
    h.cells.length ≤ h'.cells.length := by
  obtain ⟨e, hee⟩ := he
  simp [hee]

theorem heapExt_read_lt {h h' : Heap} (he : heapExt h h') {i : Nat}
    (hi : i < h.cells.length) : h'.read i = h.read i := by
  obtain ⟨e, hee⟩ := he
  simp only [Heap.read, hee]
  exact List.get?_append hi

theorem heapExt_alloc (h : Heap) (o : HObj) : heapExt h (h.alloc o).1 := ⟨[o], rfl⟩

theorem read_lt {h : Heap} {a : Nat} {o : HObj} (hr : h.read a = some o) :
    a < h.cells.length := by
  by_contra hc
  rw [Heap.read, List.get?_eq_none.mpr (Nat.le_of_not_lt hc)] at hr
  cases hr

theorem alloc_read_new (h : Heap) (o : HObj) :
    (h.alloc o).1.read (h.alloc o).2 = some o := by
  simp only [Heap.alloc, Heap.read]
  exact List.get?_concat_length h.cells o

theorem write_read_ne (h : Heap) (a i : Nat) (o : HObj) (hne : i ≠ a) :
    (h.write a o).read i = h.read i := by
  simp only [Heap.write, Heap.read]
  exact List.get?_set_ne o h.cells (Ne.symm hne)

theorem write_read_self {h : Heap} {a : Nat} {o' : HObj} (o : HObj)
    (hr : h.read a = some o') : (h.write a o).read a = some o := by
  simp only [Heap.write, Heap.read]
  rw [List.get?_set_eq]
  simp only [Heap.read] at hr
  rw [hr]
  rfl

theorem write_len (h : Heap) (a : Nat) (o : HObj) :
    (h.write a o).cells.length = h.cells.length := List.length_set h.cells a o

theorem adset_lookup_ne (es : List (String × Nat)) (k k' : String) (v : Nat)
    (h : k' ≠ k) : List.lookup k' (adset es k v) = List.lookup k' es := by
  have hb : (k' == k) = false := beq_eq_false_iff_ne.mpr h
  induction es with
  | nil => simp [adset, List.lookup, hb]
  | cons p rest ih =>
      obtain ⟨k₀, v₀⟩ := p
      by_cases hk : k₀ = k
      · subst hk
        simp [adset, List.lookup, hb]
      · simp [adset, hk, List.lookup, ih]

theorem dsetH_props {H : Heap} {acc : Nat} {f : String} {al : Nat} {h' : Heap}
    (hd : dsetH H acc f al = Except.ok h') :
    (∀ i, i ≠ acc → h'.read i = H.read i)
    ∧ h'.cells.length = H.cells.length
    ∧ (∀ es, H.read acc = some (HObj.hdict es) →
        h'.read acc = some (HObj.hdict (adset es f al))) := by
  unfold dsetH at hd
  cases hr : H.read acc with
  | none => rw [hr] at hd; cases hd
  | some o =>
      cases o with
      | hdict entries =>
          rw [hr] at hd
          cases hd
          refine ⟨fun i hi => write_read_ne H acc i _ hi, write_len H acc _, ?_⟩
          intro es hes
          injection hes with hes2
          injection hes2 with hes3
          subst hes3
          exact write_read_self _ hr
      | hnone => rw [hr] at hd; cases hd
      | hbool b => rw [hr] at hd; cases hd
      | hnum n => rw [hr] at hd; cases hd
      | hstr s => rw [hr] at hd; cases hd
      | hlist l => rw [hr] at hd; cases hd

theorem heapExt_append (h : Heap) (l : List HObj) : heapExt h ⟨h.cells ++ l⟩ := ⟨l, rfl⟩

theorem nrH_ext {h : Heap} {a : Nat} {h' : Heap} {r : Nat}
    (hok : normalize_recipientH h a = Except.ok (h', r)) : heapExt h h' := by
  unfold normalize_recipientH at hok
  cases hr : h.read a with
  | none => rw [hr] at hok; cases hok
  | some o =>
      cases o with
      | hstr s =>
          simp only [hr, Heap.alloc] at hok
          cases hok
          simpa using heapExt_append h _
      | hdict d =>
          simp only [hr] at hok
          cases hle : List.lookup "email" d with
          | some ae =>
              cases hln : List.lookup "name" d with
              | some an =>
                  simp only [hle, hln, Heap.alloc] at hok
                  cases hok
                  simpa using heapExt_append h _
              | none =>
                  simp only [hle, hln, Heap.alloc] at hok
                  cases hok
                  simpa using heapExt_append h _
          | none =>
              cases hln : List.lookup "name" d with
              | some an =>
                  simp only [hle, hln, Heap.alloc] at hok
                  cases hok
                  simpa using heapExt_append h _
              | none =>
                  simp only [hle, hln, Heap.alloc] at hok
                  cases hok
                  simpa using heapExt_append h _
      | hnone => rw [hr] at hok; cases hok
      | hbool b => rw [hr] at hok; cases hok
      | hnum n => rw [hr] at hok; cases hok
      | hlist l => rw [hr] at hok; cases hok

theorem listH_ext {elems : List Nat} :
    ∀ {h h' : Heap} {rs : List Nat},
      normalize_listH h elems = Except.ok (h', rs) → heapExt h h' := by
  induction elems with
  | nil =>
      intro h h' rs hok
      unfold normalize_listH at hok
      cases hok
      exact heapExt_refl h
  | cons a rest ih =>
      intro h h' rs hok
      unfold normalize_listH at hok
      cases h1 : normalize_recipientH h a with
      | error e => rw [h1] at hok; cases hok
      | ok p =>
          obtain ⟨h1', r⟩ := p
          simp only [h1] at hok
          cases h2 : normalize_listH h1' rest with
          | error e =>
              simp only [h2] at hok
              cases hok
          | ok q =>
              obtain ⟨h2', rs'⟩ := q
              simp only [h2] at hok
              cases hok
              exact heapExt_trans (nrH_ext h1) (ih h2)

theorem normFieldH_shape {h : Heap} {ad acc : Nat} {f : String} {h' : Heap}
    (hok : normFieldH h ad acc f = Except.ok h') :
    ∃ H al, heapExt h H ∧ dsetH H acc f al = Except.ok h' := by
  unfold normFieldH at hok
  cases hra : h.read ad with
  | none => rw [hra] at hok; cases hok
  | some o0 =>
      cases o0 with
      | hnone => rw [hra] at hok; cases hok
      | hbool b => rw [hra] at hok; cases hok
      | hnum n => rw [hra] at hok; cases hok
      | hstr s => rw [hra] at hok; cases hok
      | hlist l => rw [hra] at hok; cases hok
      | hdict d =>
          simp only [hra] at hok
          cases hlf : List.lookup f d with
          | none =>
              simp only [hlf, Heap.alloc] at hok
              exact ⟨_, _, heapExt_append h _, hok⟩
          | some av =>
              simp only [hlf] at hok
              cases hrv : h.read av with
              | none => simp only [hrv] at hok; cases hok
              | some o =>
                  simp only [hrv] at hok
                  cases ht : hTruthy o with
                  | false =>
                      simp only [ht, Bool.false_eq_true, if_false, Heap.alloc] at hok
                      exact ⟨_, _, heapExt_append h _, hok⟩
                  | true =>
                      simp only [ht, if_true] at hok
                      cases o with
                      | hlist elems =>
                          cases hl : normalize_listH h elems with
                          | error e => simp only [hl] at hok; cases hok
                          | ok p =>
                              obtain ⟨h1, rs⟩ := p
                              simp only [hl, Heap.alloc] at hok
                              exact ⟨_, _, heapExt_trans (listH_ext hl)
                                (heapExt_append h1 _), hok⟩
                      | hnone =>
                          cases hnr : normalize_recipientH h av with
                          | error e => simp only [hnr] at hok; cases hok
                          | ok p =>
                              obtain ⟨h1, r⟩ := p
                              simp only [hnr, Heap.alloc] at hok
                              exact ⟨_, _, heapExt_trans (nrH_ext hnr)
                                (heapExt_append h1 _), hok⟩
                      | hbool b =>
                          cases hnr : normalize_recipientH h av with
                          | error e => simp only [hnr] at hok; cases hok
                          | ok p =>
                              obtain ⟨h1, r⟩ := p
                              simp only [hnr, Heap.alloc] at hok
                              exact ⟨_, _, heapExt_trans (nrH_ext hnr)
                                (heapExt_append h1 _), hok⟩
                      | hnum n =>
                          cases hnr : normalize_recipientH h av with
                          | error e => simp only [hnr] at hok; cases hok
                          | ok p =>
                              obtain ⟨h1, r⟩ := p
                              simp only [hnr, Heap.alloc] at hok
                              exact ⟨_, _, heapExt_trans (nrH_ext hnr)
                                (heapExt_append h1 _), hok⟩
                      | hstr s =>
                          cases hnr : normalize_recipientH h av with
                          | error e => simp only [hnr] at hok; cases hok
                          | ok p =>
                              obtain ⟨h1, r⟩ := p
                              simp only [hnr, Heap.alloc] at hok
                              exact ⟨_, _, heapExt_trans (nrH_ext hnr)
                                (heapExt_append h1 _), hok⟩
                      | hdict dd =>
                          cases hnr : normalize_recipientH h av with
                          | error e => simp only [hnr] at hok; cases hok
                          | ok p =>
                              obtain ⟨h1, r⟩ := p
                              simp only [hnr, Heap.alloc] at hok
                              exact ⟨_, _, heapExt_trans (nrH_ext hnr)
                                (heapExt_append h1 _), hok⟩

theorem normFieldH_frame {h : Heap} {ad acc : Nat} {f : String} {h' : Heap}
    (hok : normFieldH h ad acc f = Except.ok h') :
    h.cells.length ≤ h'.cells.length
    ∧ (∀ i, i < h.cells.length → i ≠ acc → h'.read i = h.read i)
    ∧ (∀ es, h.read acc = some (HObj.hdict es) →
        ∃ al, h'.read acc = some (HObj.hdict (adset es f al))) := by
  obtain ⟨H, al, hext, hd⟩ := normFieldH_shape hok
  obtain ⟨hne, hlen, hacc⟩ := dsetH_props hd
  refine ⟨?_, ?_, ?_⟩
  · rw [hlen]
    exact heapExt_len hext
  · intro i hi hia
    rw [hne i hia, heapExt_read_lt hext hi]
  · intro es hes
    have hHacc : H.read acc = some (HObj.hdict es) := by
      rw [heapExt_read_lt hext (read_lt hes)]
      exact hes
    exact ⟨al, hacc es hHacc⟩

theorem normFromH_shape {h : Heap} {ad acc : Nat} {h' : Heap}
    (hok : normFromH h ad acc = Except.ok h') :
    (∃ H al, heapExt h H ∧ dsetH H acc "from" al = Except.ok h') ∨ h' = h := by
  unfold normFromH at hok
  cases hra : h.read ad with
  | none => rw [hra] at hok; cases hok
  | some o0 =>
      cases o0 with
      | hnone => rw [hra] at hok; cases hok
      | hbool b => rw [hra] at hok; cases hok
      | hnum n => rw [hra] at hok; cases hok
      | hstr s => rw [hra] at hok; cases hok
      | hlist l => rw [hra] at hok; cases hok
      | hdict d =>
          simp only [hra] at hok
          cases hlf : List.lookup "from" d with
          | none =>
              simp only [hlf] at hok
              cases hok
              exact Or.inr rfl
          | some av =>
              simp only [hlf] at hok
              cases hrv : h.read av with
              | none => simp only [hrv] at hok; cases hok
              | some o =>
                  simp only [hrv] at hok
                  cases ht : hTruthy o with
                  | false =>
                      simp only [ht, Bool.false_eq_true, if_false] at hok
                      cases hok
                      exact Or.inr rfl
                  | true =>
                      simp only [ht, if_true] at hok
                      cases o with
                      | hlist elems =>
                          cases elems with
                          | nil => simp only [] at hok; cases hok
                          | cons a0 t =>
                              cases hnr : normalize_recipientH h a0 with
                              | error e => simp only [hnr] at hok; cases hok
                              | ok p =>
                                  obtain ⟨h1, r⟩ := p
                                  simp only [hnr, Heap.alloc] at hok
                                  exact Or.inl ⟨_, _, heapExt_trans (nrH_ext hnr)
                                    (heapExt_append h1 _), hok⟩
                      | hnone =>
                          cases hnr : normalize_recipientH h av with
                          | error e => simp only [hnr] at hok; cases hok
                          | ok p =>
                              obtain ⟨h1, r⟩ := p
                              simp only [hnr, Heap.alloc] at hok
                              exact Or.inl ⟨_, _, heapExt_trans (nrH_ext hnr)
                                (heapExt_append h1 _), hok⟩
                      | hbool b =>
                          cases hnr : normalize_recipientH h av with
                          | error e => simp only [hnr] at hok; cases hok
                          | ok p =>
                              obtain ⟨h1, r⟩ := p
                              simp only [hnr, Heap.alloc] at hok
                              exact Or.inl ⟨_, _, heapExt_trans (nrH_ext hnr)
                                (heapExt_append h1 _), hok⟩
                      | hnum n =>
                          cases hnr : normalize_recipientH h av with
                          | error e => simp only [hnr] at hok; cases hok
                          | ok p =>
                              obtain ⟨h1, r⟩ := p
                              simp only [hnr, Heap.alloc] at hok
                              exact Or.inl ⟨_, _, heapExt_trans (nrH_ext hnr)
                                (heapExt_append h1 _), hok⟩
                      | hstr s =>
                          cases hnr : normalize_recipientH h av with
                          | error e => simp only [hnr] at hok; cases hok
                          | ok p =>
                              obtain ⟨h1, r⟩ := p
                              simp only [hnr, Heap.alloc] at hok
                              exact Or.inl ⟨_, _, heapExt_trans (nrH_ext hnr)
                                (heapExt_append h1 _), hok⟩
                      | hdict dd =>
                          cases hnr : normalize_recipientH h av with
                          | error e => simp only [hnr] at hok; cases hok
                          | ok p =>
                              obtain ⟨h1, r⟩ := p
                              simp only [hnr, Heap.alloc] at hok
                              exact Or.inl ⟨_, _, heapExt_trans (nrH_ext hnr)
                                (heapExt_append h1 _), hok⟩

theorem normFromH_frame {h : Heap} {ad acc : Nat} {h' : Heap}
    (hok : normFromH h ad acc = Except.ok h') :
    h.cells.length ≤ h'.cells.length
    ∧ (∀ i, i < h.cells.length → i ≠ acc → h'.read i = h.read i)
    ∧ (∀ es, h.read acc = some (HObj.hdict es) →
        ∃ es', h'.read acc = some (HObj.hdict es')
          ∧ ∀ k, k ≠ "from" → List.lookup k es' = List.lookup k es) := by
  rcases normFromH_shape hok with ⟨H, al, hext, hd⟩ | rfl
  · obtain ⟨hne, hlen, hacc⟩ := dsetH_props hd
    refine ⟨?_, ?_, ?_⟩
    · rw [hlen]
      exact heapExt_len hext
    · intro i hi hia
      rw [hne i hia, heapExt_read_lt hext hi]
    · intro es hes
      have hHacc : H.read acc = some (HObj.hdict es) := by
        rw [heapExt_read_lt hext (read_lt hes)]
        exact hes
      exact ⟨adset es "from" al, hacc es hHacc,
        fun k hk => adset_lookup_ne es "from" k al hk⟩
  · exact ⟨le_refl _, fun i _ _ => rfl, fun es hes => ⟨es, hes, fun k _ => rfl⟩⟩

/-- **C4**: on the heap model, whenever `normalize_draft` returns, every
pre-existing heap cell is unchanged (so the argument draft — and everything
reachable from it — equals a deep copy taken before the call), the returned
dict is a freshly allocated object distinct from the argument, and every
key other than `to`/`cc`/`bcc`/`from` is mapped in the result to the very
same value address as in the argument (the shallow copy). -/
theorem normalize_draftH_no_mutation :
    ∀ (h : Heap) (ad : Nat) (h' : Heap) (res : Nat),
      normalize_draftH h ad = Except.ok (h', res) →
      (∀ i, i < h.cells.length → h'.read i = h.read i)
      ∧ ad < h.cells.length
      ∧ res = h.cells.length
      ∧ res ≠ ad
      ∧ (∀ entries, h.read ad = some (HObj.hdict entries) →
          ∃ res_entries, h'.read res = some (HObj.hdict res_entries)
            ∧ ∀ k, k ≠ "to" → k ≠ "cc" → k ≠ "bcc" → k ≠ "from" →
                List.lookup k res_entries = List.lookup k entries) := by
  intro h ad h' res hok
  unfold normalize_draftH at hok
  cases hra : h.read ad with
  | none => rw [hra] at hok; cases hok
  | some o0 =>
      cases o0 with
      | hnone => rw [hra] at hok; cases hok
      | hbool b => rw [hra] at hok; cases hok
      | hnum n => rw [hra] at hok; cases hok
      | hstr s => rw [hra] at hok; cases hok
      | hlist l => rw [hra] at hok; cases hok
      | hdict entries =>
          simp only [hra, Heap.alloc] at hok
          have hadlt : ad < h.cells.length := read_lt hra
          cases h1ok : normFieldH ⟨h.cells ++ [HObj.hdict entries]⟩ ad h.cells.length "to" with
          | error e => simp only [h1ok] at hok; cases hok
          | ok h1 =>
              simp only [h1ok] at hok
              cases h2ok : normFieldH h1 ad h.cells.length "cc" with
              | error e => simp only [h2ok] at hok; cases hok
              | ok h2 =>
                  simp only [h2ok] at hok
                  cases h3ok : normFieldH h2 ad h.cells.length "bcc" with
                  | error e => simp only [h3ok] at hok; cases hok
                  | ok h3 =>
                      simp only [h3ok] at hok
                      cases h4ok : normFromH h3 ad h.cells.length with
                      | error e => simp only [h4ok] at hok; cases hok
                      | ok h4 =>
                          simp only [h4ok] at hok
                          injection hok with hok1
                          injection hok1 with hh hres
                          subst hh
                          subst hres
                          obtain ⟨l1, r1, a1⟩ := normFieldH_frame h1ok
                          obtain ⟨l2, r2, a2⟩ := normFieldH_frame h2ok
                          obtain ⟨l3, r3, a3⟩ := normFieldH_frame h3ok
                          obtain ⟨l4, r4, a4⟩ := normFromH_frame h4ok
                          have h0len : (⟨h.cells ++ [HObj.hdict entries]⟩ : Heap).cells.length
                              = h.cells.length + 1 := by simp
                          refine ⟨?_, hadlt, rfl, Nat.ne_of_gt hadlt, ?_⟩
                          · intro i hi
                            have hiacc : i ≠ h.cells.length := Nat.ne_of_lt hi
                            have hi0 : i < (⟨h.cells ++ [HObj.hdict entries]⟩ : Heap).cells.length := by
                              rw [h0len]; omega
                            have hi1 : i < h1.cells.length := lt_of_lt_of_le hi0 l1
                            have hi2 : i < h2.cells.length := lt_of_lt_of_le hi1 l2
                            have hi3 : i < h3.cells.length := lt_of_lt_of_le hi2 l3
                            rw [r4 i hi3 hiacc, r3 i hi2 hiacc, r2 i hi1 hiacc,
                                r1 i hi0 hiacc]
                            show (⟨h.cells ++ [HObj.hdict entries]⟩ : Heap).read i = h.read i
                            simp only [Heap.read]
                            exact List.get?_append hi
                          · intro entries0 hent
                            injection hent with hent1
                            injection hent1 with hent2
                            subst hent2
                            have hacc0 : (⟨h.cells ++ [HObj.hdict entries]⟩ : Heap).read
                                h.cells.length = some (HObj.hdict entries) := by
                              simp only [Heap.read]
                              exact List.get?_concat_length h.cells _
                            obtain ⟨al1, hacc1⟩ := a1 entries hacc0
                            obtain ⟨al2, hacc2⟩ := a2 _ hacc1
                            obtain ⟨al3, hacc3⟩ := a3 _ hacc2
                            obtain ⟨es4, hacc4, hlook⟩ := a4 _ hacc3
                            refine ⟨es4, hacc4, ?_⟩
                            intro k hto hcc hbcc hfrom
                            rw [hlook k hfrom,
                                adset_lookup_ne _ "bcc" k _ hbcc,
                                adset_lookup_ne _ "cc" k _ hcc,
                                adset_lookup_ne _ "to" k _ hto]

/-- A concrete heap: address 3 holds the draft
`{"to": <addr 1 = ["a@b.c"]>, "subject": <addr 2 = "Hi">}`. -/
def demoHeap : Heap :=
  ⟨[HObj.hstr "a@b.c", HObj.hlist [0], HObj.hstr "Hi",
    HObj.hdict [("to", 1), ("subject", 2)]]⟩

/-- The heap after `normalize_draft` of `demoHeap`'s draft: the original
cells 0–3 are untouched; the copy lives at the fresh address 4 and shares
the `subject` value address 2. -/
def demoHeapOut : Heap :=
  ⟨[HObj.hstr "a@b.c", HObj.hlist [0], HObj.hstr "Hi",
    HObj.hdict [("to", 1), ("subject", 2)],
    HObj.hdict [("to", 7), ("subject", 2), ("cc", 8), ("bcc", 9)],
    HObj.hstr "", HObj.hdict [("email", 0), ("name", 5)],
    HObj.hlist [6], HObj.hlist [], HObj.hlist []]⟩

/-- Witness for C4 at the concrete heap: the run succeeds, the input draft
cell is unchanged, the result is a distinct object, and `subject` still
points at the same shared value address. -/
theorem normalize_draftH_no_mutation_witness :
    normalize_draftH demoHeap 3 = Except.ok (demoHeapOut, 4)
    ∧ Heap.read demoHeapOut 3 = Heap.read demoHeap 3
    ∧ (4 : Nat) ≠ 3 := by
  have hrun : normalize_draftH demoHeap 3 = Except.ok (demoHeapOut, 4) := rfl
  have h := normalize_draftH_no_mutation demoHeap 3 demoHeapOut 4 hrun
  exact ⟨hrun, h.1 3 (by decide), h.2.2.2.1⟩

-- === C7: main (src/draft-email.py) error signalling ===

/-- The argparse result consumed by `main` (strings default to `None`). -/
structure Args where
  thread_id : String
  dictation : String
  feedback : Option String
  previous_draft : Option String
  verbose : Bool
  body_only : Bool
  output : Option String

/-- Python truthiness of an optional CLI string (argparse gives `None` or a
string; the empty string is falsy). -/
def optTruthy : Option String → Bool
  | some s => !s.isEmpty
  | Option.none => false

/-- The externals `main` interacts with, resolved ahead of time: environment
variables, the previous-draft file read, the fetched thread, the cleaned
messages, the LLM generation calls, and the stdlib json/strftime routines. -/
structure Env where
  hasNylasKey : Bool
  hasNylasGrant : Bool
  hasAnthropicKey : Bool
  readFile : String → Except String String
  thread : Val
  cleanedMessages : List Dict
  jsonLoads : String → Option Val
  jsonDumps : Dict → String
  fmtDate : Int → String
  generate : String → String → String
  generateFeedback : String → String → String → String → String

/-- Externally visible draft-producing actions of one `main` run. -/
inductive Event where
  | generatedDraft : Event
  | wroteDraft : String → Event
  | printedDraft : Event

/-- How the process ends: `sys.exit(code)` with a message on stderr, an
uncaught exception, or a normal finish (with the stdout payload). -/
inductive Outcome where
  | exited : Nat → String → Outcome
  | crashed : String → Outcome
  | finished : String → Outcome

/-- `main` after the argument/file validations: check_env, thread fetch and
checks, message cleaning, thread formatting, generation, parsing,
normalization, and output. `prevFeedback` carries the validated previous
draft text and feedback when in revision mode. -/
def mainAfterChecks (args : Args) (env : Env)
    (prevFeedback : Option (String × String)) : Outcome × List Event :=
  if !(env.hasNylasKey && env.hasNylasGrant && env.hasAnthropicKey) then
    (Outcome.exited 1 "Error: Missing environment variables", [])
  else if !pyTruthy env.thread then
    (Outcome.exited 1 ("Error: Thread not found: " ++ args.thread_id), [])
  else
    match env.thread with
    | Val.dict td =>
        if !pyTruthy (dictGet td "message_ids" (Val.list [])) then
          (Outcome.exited 1 "Error: Thread has no messages", [])
        else if env.cleanedMessages.isEmpty then
          (Outcome.exited 1 "Error: Could not fetch any messages", [])
        else
          let thread_content := format_thread env.fmtDate td env.cleanedMessages
          let raw :=
            match prevFeedback with
            | some (prev, fb) => env.generateFeedback thread_content args.dictation prev fb
            | Option.none => env.generate thread_content args.dictation
          let events := [Event.generatedDraft]
          match parse_draft_response env.jsonLoads raw with
          | Val.dict dd =>
              match normalize_draft dd with
              | Except.error e => (Outcome.crashed e, events)
              | Except.ok nd =>
                  let output_content :=
                    if args.body_only then pyStr (dictGet nd "body" (Val.str raw))
                    else env.jsonDumps nd
                  match args.output with
                  | some out =>
                      if !out.isEmpty then
                        (Outcome.finished "", events ++ [Event.wroteDraft out])
                      else (Outcome.finished output_content, events ++ [Event.printedDraft])
                  | Option.none =>
                      (Outcome.finished output_content, events ++ [Event.printedDraft])
          | _ => (Outcome.crashed "TypeError", events)
    | _ => (Outcome.crashed "AttributeError", [])

/-- `draft-email.main`: argument validation, early previous-draft file
validation (before any API call), then the pipeline. -/
def mainFn (args : Args) (env : Env) : Outcome × List Event :=
  if optTruthy args.feedback && !optTruthy args.previous_draft then
    (Outcome.exited 1 "Error: --feedback requires --previous-draft", [])
  else if optTruthy args.previous_draft && !optTruthy args.feedback then
    (Outcome.exited 1 "Error: --previous-draft requires --feedback", [])
  else if optTruthy args.feedback then
    match env.readFile ((args.previous_draft).getD "") with
    | Except.error e => (Outcome.exited 1 ("Error reading previous draft: " ++ e), [])
    | Except.ok content =>
        if (pyStrip content).isEmpty then
          (Outcome.exited 1 "Error: Previous draft file is empty", [])
        else if (pyStrip ((args.feedback).getD "")).isEmpty then
          (Outcome.exited 1 "Error: Feedback cannot be empty", [])
        else mainAfterChecks args env (some (content, (args.feedback).getD ""))
  else mainAfterChecks args env Option.none

/-- **C7**: empty or blank required content is signalled as a non-success
outcome before any draft is generated or written: a previous-draft file
that is empty or whitespace-only exits with code 1 and the
"Previous draft file is empty" error and an empty action trace; a fetched
thread whose `message_ids` list is empty exits with code 1 and the
"Thread has no messages" error and an empty action trace. -/
theorem main_empty_content_errors :
    ∀ (args : Args) (env : Env),
      (∀ content, optTruthy args.feedback = true → optTruthy args.previous_draft = true →
        env.readFile ((args.previous_draft).getD "") = Except.ok content →
        (pyStrip content).isEmpty = true →
        mainFn args env = (Outcome.exited 1 "Error: Previous draft file is empty", []))
      ∧ (∀ td, optTruthy args.feedback = false → optTruthy args.previous_draft = false →
          env.hasNylasKey = true → env.hasNylasGrant = true → env.hasAnthropicKey = true →
          env.thread = Val.dict td → pyTruthy (Val.dict td) = true →
          List.lookup "message_ids" td = some (Val.list []) →
          mainFn args env = (Outcome.exited 1 "Error: Thread has no messages", [])) := by
  intro args env
  constructor
  · intro content hf hp hread hblank
    unfold mainFn
    rw [hf, hp, hread]
    simp [hblank]
  · intro td hf hp hk1 hk2 hk3 hthread htruthy hmids
    unfold mainFn
    rw [hf, hp]
    simp only [Bool.false_and, Bool.and_false, Bool.not_false, if_false, if_true,
      Bool.false_eq_true, ite_false, ite_true]
    unfold mainAfterChecks
    rw [hk1, hk2, hk3, hthread]
    have hmf : pyTruthy (Val.list []) = false := rfl
    simp [htruthy, dictGet, hmids, hmf]

/-- Witness for C7 at concrete arguments and environments: a whitespace-only
previous draft, and an empty `message_ids` thread. -/
theorem main_empty_content_errors_witness :
    mainFn ⟨"t1", "say hi", some "shorter", some "/tmp/d.json", false, false, Option.none⟩
        ⟨true, true, true, fun _ => Except.ok "   ", Val.dict [], [],
         fun _ => Option.none, fun _ => "", fun _ => "", fun _ _ => "",
         fun _ _ _ _ => ""⟩
      = (Outcome.exited 1 "Error: Previous draft file is empty", [])
    ∧ mainFn ⟨"t2", "say hi", Option.none, Option.none, false, false, Option.none⟩
        ⟨true, true, true, fun _ => Except.ok "", Val.dict [("message_ids", Val.list [])], [],
         fun _ => Option.none, fun _ => "", fun _ => "", fun _ _ => "",
         fun _ _ _ _ => ""⟩
      = (Outcome.exited 1 "Error: Thread has no messages", []) := by
  constructor
  · exact (main_empty_content_errors _ _).1 "   " rfl rfl rfl rfl
  · exact (main_empty_content_errors _ _).2 [("message_ids", Val.list [])]
      rfl rfl rfl rfl rfl rfl rfl rfl
